import Mathlib

/-!
Verification of the QISE repository.

Part A embeds the `Graph` class of `src/GraphModeling/models/Graph.py`.
Part B models the label-propagation engine (`LabelAlgorithm`) from the
specification; its implementation file is exercised by
`src/LabelSetting/tests/LabelAlgorithmTest.py` but is not part of the
source tree, so the engine definitions are written from the spec text.
-/

namespace QISE

namespace Graph

/-- Embedding of the accumulation step of `Graph.get_nodes`:
`if node not in nodes: nodes.append(node)`. -/
def addNode (ns : List Int) (x : Int) : List Int :=
  if x ∈ ns then ns else ns ++ [x]

/-- Embedding of the loop `for edge in edges: for node in edge: ...`
of `Graph.get_nodes`. -/
def collectNodes : List Int → List (Int × Int) → List Int
  | ns, [] => ns
  | ns, e :: es => collectNodes (addNode (addNode ns e.1) e.2) es

/-- Embedding of `Graph.get_nodes` (Graph.py, lines 149-167): collect the
distinct endpoints of the edge list in first-occurrence order, then sort
(`nodes.sort()`). -/
def get_nodes (edges : List (Int × Int)) : List Int :=
  List.insertionSort (fun a b => a ≤ b) (collectNodes [] edges)

theorem mem_addNode {ns : List Int} {x y : Int} :
    y ∈ addNode ns x ↔ y ∈ ns ∨ y = x := by
  unfold addNode
  split
  · constructor
    · intro h; exact Or.inl h
    · rintro (h | rfl)
      · exact h
      · assumption
  · simp

theorem nodup_addNode {ns : List Int} {x : Int} (h : ns.Nodup) :
    (addNode ns x).Nodup := by
  unfold addNode
  split
  · exact h
  · rename_i hx
    rw [List.nodup_append]
    exact ⟨h, List.nodup_singleton x, by simpa using fun hmem => hx hmem⟩

theorem mem_collectNodes {x : Int} :
    ∀ (es : List (Int × Int)) (ns : List Int),
      x ∈ collectNodes ns es ↔ x ∈ ns ∨ ∃ e ∈ es, x = e.1 ∨ x = e.2 := by
  intro es
  induction es with
  | nil => intro ns; simp [collectNodes]
  | cons e es ih =>
    intro ns
    rw [collectNodes, ih, mem_addNode, mem_addNode]
    constructor
    · rintro (((h | h) | h) | ⟨e', he', h⟩)
      · exact Or.inl h
      · exact Or.inr ⟨e, List.mem_cons_self e es, Or.inl h⟩
      · exact Or.inr ⟨e, List.mem_cons_self e es, Or.inr h⟩
      · exact Or.inr ⟨e', List.mem_cons_of_mem e he', h⟩
    · rintro (h | ⟨e', he', h⟩)
      · exact Or.inl (Or.inl (Or.inl h))
      · rcases List.mem_cons.mp he' with rfl | he'
        · rcases h with h | h
          · exact Or.inl (Or.inl (Or.inr h))
          · exact Or.inl (Or.inr h)
        · exact Or.inr ⟨e', he', h⟩

theorem nodup_collectNodes :
    ∀ (es : List (Int × Int)) (ns : List Int),
      ns.Nodup → (collectNodes ns es).Nodup := by
  intro es
  induction es with
  | nil => intro ns h; exact h
  | cons e es ih =>
    intro ns h
    exact ih _ (nodup_addNode (nodup_addNode h))

theorem mem_get_nodes {edges : List (Int × Int)} {x : Int} :
    x ∈ get_nodes edges ↔ ∃ e ∈ edges, x = e.1 ∨ x = e.2 := by
  unfold get_nodes
  rw [(List.perm_insertionSort _ _).mem_iff, mem_collectNodes]
  simp

theorem nodup_get_nodes (edges : List (Int × Int)) :
    (get_nodes edges).Nodup := by
  unfold get_nodes
  rw [(List.perm_insertionSort _ _).nodup_iff]
  exact nodup_collectNodes edges [] List.nodup_nil

end Graph

section SimplePaths

variable {α : Type} [DecidableEq α]

/-- Depth-first enumeration of simple paths: from the current node `u`, with
the on-path visited set `visited` (which contains `u`), return the node
sequences `u :: q` such that `q` follows successor edges, avoids `visited`,
repeats no node, has length below `fuel`, and the sequence ends at `target`.
Models the recursive traversal shared by `networkx.all_simple_paths` (used by
`Graph.get_simple_paths`) and the exhaustive strategy of spec section 4.5. -/
def simplePathsFrom (succ : α → List α) (target : α) : Nat → α → List α → List (List α)
  | 0, _, _ => []
  | fuel+1, u, visited =>
    (if u = target then [[u]] else []) ++
      ((succ u).filter (fun v => decide (v ∉ visited))).flatMap
        (fun v => (simplePathsFrom succ target fuel v (v :: visited)).map
          (fun p => u :: p))

theorem mem_ite_singleton {β : Type} {c : Prop} [Decidable c] {x p : β} :
    p ∈ (if c then [x] else []) ↔ c ∧ p = x := by
  split
  · rename_i h; simp [h, eq_comm]
  · rename_i h; simp [h]

theorem mem_simplePathsFrom {succ : α → List α} {target : α} :
    ∀ (fuel : Nat) (u : α) (visited : List α) (p : List α),
      p ∈ simplePathsFrom succ target fuel u visited ↔
        ∃ q, p = u :: q ∧ List.Chain (fun a b => b ∈ succ a) u q ∧
          (u :: q).getLast? = some target ∧ q.Nodup ∧
          (∀ x ∈ q, x ∉ visited) ∧ q.length < fuel := by
  intro fuel
  induction fuel with
  | zero =>
    intro u visited p
    simp [simplePathsFrom]
  | succ fuel ih =>
    intro u visited p
    rw [simplePathsFrom]
    rw [List.mem_append, mem_ite_singleton]
    simp only [List.mem_flatMap, List.mem_filter, List.mem_map, decide_eq_true_eq]
    constructor
    · rintro (⟨rfl, rfl⟩ | ⟨v, ⟨hvs, hvvis⟩, a, ha, rfl⟩)
      · exact ⟨[], rfl, List.Chain.nil, by simp, List.nodup_nil, by simp, Nat.succ_pos _⟩
      · rcases (ih v (v :: visited) a).mp ha with
          ⟨q', rfl, hch, hlast, hnd, havoid, hlen⟩
        refine ⟨v :: q', rfl, List.Chain.cons hvs hch, ?_, ?_, ?_, ?_⟩
        · rwa [List.getLast?_cons_cons]
        · refine List.nodup_cons.mpr ⟨?_, hnd⟩
          intro hv
          exact (havoid v hv) (List.mem_cons_self v visited)
        · intro x hx
          rcases List.mem_cons.mp hx with rfl | hx
          · exact hvvis
          · intro hxv
            exact (havoid x hx) (List.mem_cons_of_mem v hxv)
        · simpa using Nat.succ_lt_succ hlen
    · rintro ⟨q, rfl, hch, hlast, hnd, havoid, hlen⟩
      rcases q with _ | ⟨v, q'⟩
      · left
        refine ⟨?_, rfl⟩
        have : u = target := by simpa using hlast
        exact this
      · right
        rcases List.chain_cons.mp hch with ⟨hvs, hch'⟩
        refine ⟨v, ⟨hvs, havoid v (List.mem_cons_self v q')⟩,
          v :: q', ?_, rfl⟩
        refine (ih v (v :: visited) (v :: q')).mpr
          ⟨q', rfl, hch', ?_, (List.nodup_cons.mp hnd).2, ?_, ?_⟩
        · rwa [List.getLast?_cons_cons] at hlast
        · intro x hx
          intro hmem
          rcases List.mem_cons.mp hmem with rfl | hxvis
          · exact (List.nodup_cons.mp hnd).1 hx
          · exact havoid x (List.mem_cons_of_mem v hx) hxvis
        · simpa using Nat.lt_of_succ_lt_succ hlen

theorem chain_target_mem {R : α → α → Prop} :
    ∀ {s : α} {q : List α}, List.Chain R s q → ∀ x ∈ q, ∃ y, R y x := by
  intro s q
  induction q generalizing s with
  | nil => intro _ x hx; cases hx
  | cons v q ih =>
    intro hch x hx
    rcases List.chain_cons.mp hch with ⟨hsv, hch'⟩
    rcases List.mem_cons.mp hx with rfl | hx
    · exact ⟨s, hsv⟩
    · exact ih hch' x hx

theorem nodup_length_le {l L : List α} (hnd : l.Nodup)
    (hsub : ∀ x ∈ l, x ∈ L) : l.length ≤ L.length := by
  calc l.length = l.toFinset.card := (List.toFinset_card_of_nodup hnd).symm
    _ ≤ L.toFinset.card := by
        apply Finset.card_le_card
        intro x hx
        rw [List.mem_toFinset] at hx ⊢
        exact hsub x hx
    _ ≤ L.length := List.toFinset_card_le L

end SimplePaths

namespace Graph

/-- Successor list of `u` in the networkx digraph built from the edge list. -/
def successors (edges : List (Int × Int)) (u : Int) : List Int :=
  (edges.filter (fun e => decide (e.1 = u))).map (fun e => e.2)

/-- Typed failure surfaced by the graph operations. -/
inductive GraphErr where
  | nodeNotFound
deriving DecidableEq

theorem mem_successors {edges : List (Int × Int)} {a b : Int} :
    b ∈ successors edges a ↔ (a, b) ∈ edges := by
  unfold successors
  simp only [List.mem_map, List.mem_filter, decide_eq_true_eq]
  constructor
  · rintro ⟨e, ⟨he, rfl⟩, rfl⟩
    exact he
  · intro h
    exact ⟨(a, b), ⟨h, rfl⟩, rfl⟩

/-- Modelled from the spec: `networkx.all_simple_paths(G, source, target)` is a
third-party collaborator absent from the source tree. Per its documented
behaviour and spec sections 4.5 and 7 it rejects a source or target outside the
graph's node universe with a typed `NodeNotFound` failure at call time, and
otherwise enumerates depth first, with an on-path visited set, every simple
path from `source` to `target`. -/
def all_simple_paths (edges : List (Int × Int)) (source target : Int) :
    Except GraphErr (List (List Int)) :=
  if source ∉ get_nodes edges then .error .nodeNotFound
  else if target ∉ get_nodes edges then .error .nodeNotFound
  else .ok (simplePathsFrom (successors edges) target
    (get_nodes edges).length source [source])

/-- Embedding of the falsy default-destination logic of
`Graph.get_simple_paths` (Graph.py lines 76-80): `if not destination_node:
destination_node = len(Graph.get_nodes(self.edges)) - 1`. Both a `None` and a
`0` destination are falsy and get replaced by the node count minus one. -/
def effDest (edges : List (Int × Int)) : Option Int → Int
  | none => ((get_nodes edges).length : Int) - 1
  | some d => if d = 0 then ((get_nodes edges).length : Int) - 1 else d

/-- Embedding of `Graph.get_simple_paths` (Graph.py lines 65-85): starts from
`paths = []`, substitutes the falsy destination, and only when the networkx
graph is truthy (has at least one node) replaces `paths` by the result of
`networkx.all_simple_paths`; an empty graph therefore yields the initial empty
list. -/
def get_simple_paths (edges : List (Int × Int)) (source_node : Int)
    (destination_node : Option Int) : Except GraphErr (List (List Int)) :=
  if (get_nodes edges).isEmpty then .ok []
  else all_simple_paths edges source_node (effDest edges destination_node)

/-- A simple path of the graph from `s` to `t`: a nonempty node sequence that
starts at `s`, whose consecutive pairs are edges, that repeats no node, ends at
`t`, and lies inside the node universe. -/
def IsSimplePathTo (edges : List (Int × Int)) (s t : Int) (p : List Int) : Prop :=
  ∃ q, p = s :: q ∧ List.Chain (fun a b => (a, b) ∈ edges) s q ∧
    p.getLast? = some t ∧ p.Nodup ∧ ∀ x ∈ p, x ∈ get_nodes edges

theorem mem_dfs_iff_isSimplePath {edges : List (Int × Int)} {s t : Int}
    (hs : s ∈ get_nodes edges) (p : List Int) :
    p ∈ simplePathsFrom (successors edges) t (get_nodes edges).length s [s] ↔
      IsSimplePathTo edges s t p := by
  rw [mem_simplePathsFrom]
  constructor
  · rintro ⟨q, rfl, hch, hlast, hnd, havoid, _⟩
    refine ⟨q, rfl, ?_, hlast, ?_, ?_⟩
    · exact List.Chain.imp (fun a b hm => mem_successors.mp hm) hch
    · refine List.nodup_cons.mpr ⟨?_, hnd⟩
      intro hsq
      exact havoid s hsq (List.mem_singleton.mpr rfl)
    · intro x hx
      rcases List.mem_cons.mp hx with rfl | hx
      · exact hs
      · rcases chain_target_mem hch x hx with ⟨y, hy⟩
        exact mem_get_nodes.mpr ⟨(y, x), mem_successors.mp hy, Or.inr rfl⟩
  · rintro ⟨q, rfl, hch, hlast, hnd, hall⟩
    rcases List.nodup_cons.mp hnd with ⟨hsq, hndq⟩
    refine ⟨q, rfl, ?_, hlast, hndq, ?_, ?_⟩
    · exact List.Chain.imp (fun a b hm => mem_successors.mpr hm) hch
    · intro x hx hxs
      rw [List.mem_singleton] at hxs
      subst hxs
      exact hsq hx
    · have hlen : (s :: q).length ≤ (get_nodes edges).length :=
        nodup_length_le hnd hall
      simpa using hlen

/-- Python (and numpy) indexing semantics: a negative index counts from the
end of an axis of length `n`, so index `i` denotes position `n + i`. -/
def pyIdx (n : Nat) (i : Int) : Int :=
  if i < 0 then (n : Int) + i else i

/-- Embedding of `Graph._initialize_connection_matrix` (Graph.py lines
124-146): starting from the `n` by `n` zero matrix (`n` the number of nodes),
execute `self.connection_matrix[edge[0] - 1][edge[1] - 1] = 1` for each edge,
with numpy's negative-index wraparound applied to both coordinates. -/
def connection_matrix (edges : List (Int × Int)) : Int → Int → Nat :=
  let n := (get_nodes edges).length
  edges.foldl
    (fun m e => fun i j =>
      if i = pyIdx n (e.1 - 1) ∧ j = pyIdx n (e.2 - 1) then 1 else m i j)
    (fun _ _ => 0)

theorem connection_matrix_foldl_mono (n : Nat) (es : List (Int × Int))
    (m : Int → Int → Nat) (i j : Int) (h : m i j = 1) :
    (es.foldl
      (fun m e => fun i j =>
        if i = pyIdx n (e.1 - 1) ∧ j = pyIdx n (e.2 - 1) then 1 else m i j)
      m) i j = 1 := by
  induction es generalizing m with
  | nil => exact h
  | cons e es ih =>
    apply ih
    dsimp only
    split
    · rfl
    · exact h

theorem connection_matrix_set (edges : List (Int × Int)) {a b : Int}
    (hmem : (a, b) ∈ edges) :
    connection_matrix edges (pyIdx (get_nodes edges).length (a - 1))
      (pyIdx (get_nodes edges).length (b - 1)) = 1 := by
  unfold connection_matrix
  generalize (get_nodes edges).length = n
  generalize hm : (fun _ _ => 0 : Int → Int → Nat) = m
  clear hm
  induction edges generalizing m with
  | nil => cases hmem
  | cons e es ih =>
    rcases List.mem_cons.mp hmem with he | hmem'
    · subst he
      rw [List.foldl_cons]
      apply connection_matrix_foldl_mono
      dsimp only
      rw [if_pos ⟨rfl, rfl⟩]
    · exact ih hmem' _

end Graph

/-- Key-replacing insertion, the embedding of the Python dict assignment
`graphDict[i, j] = (0, 0)` used by `Graph.get_arbitrary_graph`. -/
def dictInsert (d : List ((Nat × Nat) × (Nat × Nat))) (k : Nat × Nat)
    (v : Nat × Nat) : List ((Nat × Nat) × (Nat × Nat)) :=
  if d.any (fun e => e.1 == k) then
    d.map (fun e => if e.1 = k then (k, v) else e)
  else d ++ [(k, v)]

/-- Embedding of the Python membership test `(k, i) in graphDict`. -/
def dictHasKey (d : List ((Nat × Nat) × (Nat × Nat))) (k : Nat × Nat) : Bool :=
  d.any (fun e => e.1 == k)

namespace Graph

/-- Embedding of `Graph.get_arbitrary_graph` (Graph.py lines 184-219). The
random draws are supplied as oracles: `randint lo hi` stands for
`numpy.random.randint(lo, hi)` (a draw from `[lo, hi)`) and `choice l k` for
`numpy.random.choice(l, k, replace=False)` (a draw of `k` distinct members of
`l`). For each `i` in `range(0, n-1)` the loop adds the outgoing edges
`(i, j)` for `j` in the drawn `delta_o`, and, when `i` has no incoming edge
yet and `i != 0`, one incoming edge `(n_in, i)`; every edge carries the
resource vector `(0, 0)`. -/
def get_arbitrary_graph (randint : Nat → Nat → Nat)
    (choice : List Nat → Nat → List Nat) (n : Nat) :
    List ((Nat × Nat) × (Nat × Nat)) :=
  (List.range (n - 1)).foldl
    (fun graphDict i =>
      let N_oe := if n - i > 1 then randint 1 (n - i) else 1
      let delta_o :=
        if i ≠ n - 1 then choice (List.range' (i + 1) (n - (i + 1))) N_oe
        else [n]
      let d1 := delta_o.foldl (fun d j => dictInsert d (i, j) (0, 0)) graphDict
      let oneInNode := (List.range i).any (fun k => dictHasKey d1 (k, i))
      if oneInNode = false ∧ i ≠ 0 then
        let n_in := if i > 1 then randint 0 (i - 1) else 0
        dictInsert d1 (n_in, i) (0, 0)
      else d1)
    []

theorem dictInsert_pred {P : (Nat × Nat) × (Nat × Nat) → Prop}
    {d : List ((Nat × Nat) × (Nat × Nat))} {k v : Nat × Nat}
    (hd : ∀ e ∈ d, P e) (hkv : P (k, v)) :
    ∀ e ∈ dictInsert d k v, P e := by
  unfold dictInsert
  split
  · intro e he
    rcases List.mem_map.mp he with ⟨e', he', heq⟩
    by_cases hk : e'.1 = k
    · rw [if_pos hk] at heq
      rw [← heq]
      exact hkv
    · rw [if_neg hk] at heq
      rw [← heq]
      exact hd e' he'
  · intro e he
    rcases List.mem_append.mp he with he | he
    · exact hd e he
    · rw [List.mem_singleton.mp he]
      exact hkv

theorem foldl_dictInsert_pred {P : (Nat × Nat) × (Nat × Nat) → Prop} {i : Nat}
    (js : List Nat) (hjs : ∀ j ∈ js, i < j)
    (d : List ((Nat × Nat) × (Nat × Nat))) (hd : ∀ e ∈ d, P e)
    (hP : ∀ j, i < j → P ((i, j), (0, 0))) :
    ∀ e ∈ js.foldl (fun d j => QISE.dictInsert d (i, j) (0, 0)) d, P e := by
  induction js generalizing d with
  | nil => exact hd
  | cons j js ih =>
    rw [List.foldl_cons]
    refine ih (fun j hj => hjs j (List.mem_cons_of_mem _ hj)) _ ?_
    exact dictInsert_pred hd (hP j (hjs j (List.mem_cons_self j js)))

end Graph

namespace LabelAlgorithm

/-!
Modelled from the spec: the `LabelAlgorithm` engine
(`src/LabelSetting/Models/LabelAlgorithm.py`, exercised by
`src/LabelSetting/tests/LabelAlgorithmTest.py`) is missing from the source
tree. The definitions below follow the specification text: the label and
dominance model of section 3 and 4.2, the correcting strategy
(`run_algorithm_v1`) of section 4.3, the setting strategy
(`run_algorithm_v2`) of section 4.4 and the exhaustive oracle
(`gen_all_possible_labels`) of section 4.5. Labels carry their (weight, cost)
vector and treated flag; predecessor back-references serve only path
reconstruction and are omitted, since the claims compare frontiers as
(weight, cost) sets. Worklist loops take explicit fuel; a run completes when
it reaches its the-worklist-is-empty (v1) or no-untreated-label (v2) exit,
and returns `none` when the fuel is exhausted first.
-/

/-- ResourceVector: a (weight, cost) pair; spec section 3 makes both
components non-negative, so they are naturals. -/
abbrev Vec := Nat × Nat

/-- Component-wise addition of resource vectors (spec section 3). -/
def vadd (a b : Vec) : Vec := (a.1 + b.1, a.2 + b.2)

/-- Product-order comparison: `A ≤ B` iff both components are `≤`. -/
def vecLE (a b : Vec) : Prop := a.1 ≤ b.1 ∧ a.2 ≤ b.2

instance (a b : Vec) : Decidable (vecLE a b) :=
  inferInstanceAs (Decidable (_ ∧ _))

/-- Dominance (spec section 3): `A` dominates `B` iff `A ≤ B` and `A ≠ B`. -/
def dominates (a b : Vec) : Prop := vecLE a b ∧ a ≠ b

instance (a b : Vec) : Decidable (dominates a b) :=
  inferInstanceAs (Decidable (_ ∧ _))

/-- A label at a node: its accumulated resource vector and its
treated/settled flag (spec sections 3 and 4.2). -/
structure Label where
  vec : Vec
  treated : Bool
deriving DecidableEq

/-- A weight-cost graph: the Python dict mapping the edge `(from, to)` to its
resource vector, as an association list. -/
abbrev WCGraph := List ((Nat × Nat) × Vec)

/-- Outgoing adjacency of `u`: the `(toNode, ResourceVector)` pairs
(spec section 4.1). -/
def outgoing (g : WCGraph) (u : Nat) : List (Nat × Vec) :=
  g.filterMap (fun e => if e.1.1 = u then some (e.1.2, e.2) else none)

/-- Successor nodes of `u`. -/
def succG (g : WCGraph) (u : Nat) : List Nat :=
  (outgoing g u).map (fun e => e.1)

/-- Distinct-endpoint accumulator (Nat node version). -/
def addNodeN (ns : List Nat) (x : Nat) : List Nat :=
  if x ∈ ns then ns else ns ++ [x]

/-- The node universe of a weight-cost graph: the distinct endpoints of its
edges (spec section 3). -/
def nodesOfG (g : WCGraph) : List Nat :=
  g.foldl (fun ns e => addNodeN (addNodeN ns e.1.1) e.1.2) []

/-- The nodes a run touches: the node universe together with the source. -/
def allNodes (g : WCGraph) (s : Nat) : List Nat :=
  addNodeN (nodesOfG g) s

/-- Per-node label stores of one run. -/
abbrev Stores := Nat → List Label

/-- Pointwise store update. -/
def setStore (st : Stores) (u : Nat) (ls : List Label) : Stores :=
  fun x => if x = u then ls else st x

/-- Before propagation every store is empty except the source's, which holds
exactly the zero label, untreated (spec section 3, invariants). -/
def initStores (s : Nat) : Stores :=
  fun u => if u = s then [⟨(0, 0), false⟩] else []

/-- The efficient frontier of a store: its current content as (weight, cost)
vectors (spec section 4.2, `get_efficient_labels`). -/
def get_efficient_labels (ls : List Label) : List Vec :=
  ls.map (fun l => l.vec)

/-- Spec section 4.2 `tryInsert`: a candidate whose weight exceeds the budget
is rejected unconditionally; a candidate dominated or equalled by a retained
label is rejected; otherwise every retained label the candidate dominates is
evicted and the candidate is inserted, untreated. -/
def tryInsert (B : Nat) (store : List Label) (v : Vec) : List Label × Bool :=
  if B < v.1 then (store, false)
  else if store.any (fun l => decide (vecLE l.vec v)) then (store, false)
  else (store.filter (fun l => decide (¬ dominates v l.vec)) ++ [⟨v, false⟩],
    true)

/-- One relaxation (spec section 4.3): discard an over-budget candidate,
otherwise `tryInsert` it at the target's store. -/
def relax (B : Nat) (st : Stores) (target : Nat) (cand : Vec) : Stores :=
  if B < cand.1 then st
  else setStore st target (tryInsert B (st target) cand).1

/-- Extend the label vector `v` sitting at node `u` across every outgoing
edge of `u` (spec sections 4.3 and 4.4). -/
def extend (g : WCGraph) (B : Nat) (u : Nat) (v : Vec) (st : Stores) : Stores :=
  (outgoing g u).foldl (fun st e => relax B st e.1 (vadd v e.2)) st

/-- State of the correcting strategy: the stores and the worklist of dirty
nodes. -/
structure StateV1 where
  stores : Stores
  worklist : List Nat

/-- Whether relaxing `cand` into `target` accepts the candidate. -/
def accepted (B : Nat) (st : Stores) (target : Nat) (cand : Vec) : Bool :=
  decide (¬ B < cand.1) && (tryInsert B (st target) cand).2

/-- Correcting-strategy relaxation: on acceptance the target node is
re-enqueued as dirty (spec section 4.3). -/
def relaxV1 (B : Nat) (σ : StateV1) (target : Nat) (cand : Vec) : StateV1 :=
  { stores := relax B σ.stores target cand,
    worklist :=
      if accepted B σ.stores target cand = true ∧ target ∉ σ.worklist then
        σ.worklist ++ [target]
      else σ.worklist }

/-- Extend a label across all outgoing edges, correcting-strategy version. -/
def extendV1 (g : WCGraph) (B : Nat) (u : Nat) (v : Vec) (σ : StateV1) :
    StateV1 :=
  (outgoing g u).foldl (fun σ e => relaxV1 B σ e.1 (vadd v e.2)) σ

/-- Mark every label of a store treated. -/
def markAllTreated (ls : List Label) : List Label :=
  ls.map (fun l => { l with treated := true })

/-- One correcting-strategy step (spec section 4.3): pop the dirty node `u`,
mark its labels treated, and extend each of its previously untreated labels
across every outgoing edge. -/
def stepV1 (g : WCGraph) (B : Nat) (stores : Stores) (u : Nat)
    (rest : List Nat) : StateV1 :=
  let untreated := (stores u).filter (fun l => !l.treated)
  untreated.foldl (fun σ l => extendV1 g B u l.vec σ)
    ⟨setStore stores u (markAllTreated (stores u)), rest⟩

/-- Correcting-strategy worklist loop: terminates (successfully) when the
worklist empties; `none` when the fuel runs out first. -/
def loopV1 (g : WCGraph) (B : Nat) : Nat → StateV1 → Option Stores
  | _, ⟨stores, []⟩ => some stores
  | 0, _ => none
  | fuel + 1, ⟨stores, u :: rest⟩ => loopV1 g B fuel (stepV1 g B stores u rest)

/-- Modelled from the spec: `LabelAlgorithm.run_algorithm_v1`, the correcting
strategy of spec section 4.3. The per-node stores are created fresh (empty but
for the source's zero label), so the engine object's prior `node_labels`
state is discarded. -/
def run_algorithm_v1 (prior : Stores) (g : WCGraph) (s B fuel : Nat) :
    Option Stores :=
  loopV1 g B fuel ⟨initStores s, [s]⟩

/-- The untreated labels across all nodes, as (node, vector) pairs. -/
def untreatedPairs (nodes : List Nat) (st : Stores) : List (Nat × Vec) :=
  nodes.flatMap (fun u =>
    ((st u).filter (fun l => !l.treated)).map (fun l => (u, l.vec)))

/-- Lexicographic order on (weight, cost) used by the setting strategy
(spec section 4.4). -/
def lexLT (a b : Vec) : Prop := a.1 < b.1 ∨ (a.1 = b.1 ∧ a.2 < b.2)

instance (a b : Vec) : Decidable (lexLT a b) :=
  inferInstanceAs (Decidable (_ ∨ _))

/-- The lexicographically least untreated label, if any (spec section 4.4's
priority structure). -/
def minUntreated (nodes : List Nat) (st : Stores) : Option (Nat × Vec) :=
  match untreatedPairs nodes st with
  | [] => none
  | x :: xs =>
    some (xs.foldl (fun m y => if lexLT y.2 m.2 then y else m) x)

/-- Mark the first untreated label carrying the vector `v` as treated
(spec section 4.2, `markTreated`). -/
def markTreated : List Label → Vec → List Label
  | [], _ => []
  | l :: t, v =>
    if l.vec = v ∧ l.treated = false then ⟨l.vec, true⟩ :: t
    else l :: markTreated t v

/-- One setting-strategy step (spec section 4.4): mark the extracted minimum
treated, then extend it across every outgoing edge. -/
def stepV2 (g : WCGraph) (B : Nat) (st : Stores) (u : Nat) (v : Vec) :
    Stores :=
  extend g B u v (setStore st u (markTreated (st u) v))

/-- Setting-strategy loop: terminates (successfully) when no untreated label
remains; `none` when the fuel runs out first. -/
def loopV2 (g : WCGraph) (B : Nat) (nodes : List Nat) :
    Nat → Stores → Option Stores
  | 0, st =>
    match minUntreated nodes st with
    | none => some st
    | some _ => none
  | fuel + 1, st =>
    match minUntreated nodes st with
    | none => some st
    | some (u, v) => loopV2 g B nodes fuel (stepV2 g B st u v)

/-- Modelled from the spec: `LabelAlgorithm.run_algorithm_v2`, the setting
strategy of spec section 4.4, with fresh per-run stores. -/
def run_algorithm_v2 (prior : Stores) (g : WCGraph) (s B fuel : Nat) :
    Option Stores :=
  loopV2 g B (allNodes g s) fuel (initStores s)

/-- Resource vector of the edge `(a, b)` in the edge dict. -/
def edgeVec (g : WCGraph) (a b : Nat) : Vec :=
  ((g.find? (fun e => e.1 == (a, b))).map (fun e => e.2)).getD (0, 0)

/-- Accumulated resource vector of a node sequence. -/
def pathVec (g : WCGraph) : List Nat → Vec
  | a :: b :: rest => vadd (edgeVec g a b) (pathVec g (b :: rest))
  | _ => (0, 0)

/-- Modelled from the spec: `LabelAlgorithm.gen_all_possible_labels`, the
exhaustive oracle of spec section 4.5: depth-first enumeration of every
simple path from the source, inserting the vector of each within-budget path
at its endpoint's store through the same dominance rule. -/
def gen_all_possible_labels (prior : Stores) (g : WCGraph) (s B : Nat) :
    Stores :=
  let nodes := allNodes g s
  nodes.foldl
    (fun st u =>
      let paths := simplePathsFrom (succG g) u nodes.length s [s]
      let vecs := (paths.map (pathVec g)).filter (fun v => decide (v.1 ≤ B))
      setStore st u (vecs.foldl (fun ls v => (tryInsert B ls v).1) (st u)))
    (fun _ => [])

/-- The stores of a completed run; an unfinished (fuel-exhausted) run
reports empty stores. -/
def storesOf : Option Stores → Stores
  | some st => st
  | none => fun _ => []

/-- The antichain property of one store (spec section 3, invariants). -/
def AntichainStore (ls : List Label) : Prop :=
  ∀ l1 ∈ ls, ∀ l2 ∈ ls, ¬ dominates l1.vec l2.vec

/-- Walk-reachability of a resource vector at a node: the vectors accumulated
by edge sequences from the source (spec section 3's label chains, without the
simplicity restriction). -/
inductive Reach (g : WCGraph) (s : Nat) : Nat → Vec → Prop where
  | source : Reach g s s (0, 0)
  | step {u t : Nat} {w acc : Vec} :
      Reach g s u acc → ((u, t), w) ∈ g → Reach g s t (vadd acc w)

theorem vecLE_refl (a : Vec) : vecLE a a := ⟨Nat.le_refl _, Nat.le_refl _⟩

theorem vecLE_trans {a b c : Vec} (h1 : vecLE a b) (h2 : vecLE b c) :
    vecLE a c :=
  ⟨Nat.le_trans h1.1 h2.1, Nat.le_trans h1.2 h2.2⟩

theorem vecLE_antisymm {a b : Vec} (h1 : vecLE a b) (h2 : vecLE b a) :
    a = b :=
  Prod.ext (Nat.le_antisymm h1.1 h2.1) (Nat.le_antisymm h1.2 h2.2)

theorem dominates_irrefl (a : Vec) : ¬ dominates a a :=
  fun h => h.2 rfl

theorem dominates_vecLE {a b : Vec} (h : dominates a b) : vecLE a b := h.1

theorem vecLE_vadd_right {a b : Vec} (c : Vec) (h : vecLE a b) :
    vecLE (vadd a c) (vadd b c) :=
  ⟨Nat.add_le_add_right h.1 _, Nat.add_le_add_right h.2 _⟩

theorem vecLE_self_vadd (a c : Vec) : vecLE a (vadd a c) :=
  ⟨Nat.le_add_right _ _, Nat.le_add_right _ _⟩

theorem vadd_zero_right (a : Vec) : vadd a (0, 0) = a := by
  unfold vadd
  exact Prod.ext (Nat.add_zero _) (Nat.add_zero _)

theorem vadd_assoc (a b c : Vec) : vadd (vadd a b) c = vadd a (vadd b c) := by
  unfold vadd
  exact Prod.ext (Nat.add_assoc _ _ _) (Nat.add_assoc _ _ _)

theorem vadd_fst (a b : Vec) : (vadd a b).1 = a.1 + b.1 := rfl

/-- Membership after `tryInsert`: a member of the result was retained from
the store or is the (untreated) candidate. -/
theorem tryInsert_mem {B : Nat} {ls : List Label} {v : Vec} {l : Label}
    (h : l ∈ (tryInsert B ls v).1) : l ∈ ls ∨ l = ⟨v, false⟩ := by
  unfold tryInsert at h
  split at h
  · exact Or.inl h
  · split at h
    · exact Or.inl h
    · rcases List.mem_append.mp h with h | h
      · exact Or.inl (List.mem_of_mem_filter h)
      · exact Or.inr (List.mem_singleton.mp h)

/-- A rejected `tryInsert` leaves the store unchanged. -/
theorem tryInsert_rejected {B : Nat} {ls : List Label} {v : Vec}
    (h : (tryInsert B ls v).2 = false) : (tryInsert B ls v).1 = ls := by
  unfold tryInsert at h ⊢
  split at h
  · rw [if_pos]
    assumption
  · split at h
    · rename_i hB hany
      rw [if_neg hB, if_pos hany]
    · cases h

/-- Rejection is unconditional for over-budget candidates (spec section
4.2). -/
theorem tryInsert_over_budget {B : Nat} {ls : List Label} {v : Vec}
    (h : B < v.1) : tryInsert B ls v = (ls, false) := by
  unfold tryInsert
  rw [if_pos h]

/-- Budget bound is preserved by `tryInsert`. -/
theorem tryInsert_budget {B : Nat} {ls : List Label} {v : Vec}
    (hls : ∀ l ∈ ls, l.vec.1 ≤ B) :
    ∀ l ∈ (tryInsert B ls v).1, l.vec.1 ≤ B := by
  intro l hl
  unfold tryInsert at hl
  split at hl
  · exact hls l hl
  · split at hl
    · exact hls l hl
    · rcases List.mem_append.mp hl with h | h
      · exact hls l (List.mem_of_mem_filter h)
      · rw [List.mem_singleton.mp h]
        rename_i hB _
        exact Nat.le_of_not_lt hB

/-- Antichain preservation (spec section 4.2): evicting what the accepted
candidate dominates, and rejecting dominated-or-equal candidates, keeps the
store an antichain. -/
theorem tryInsert_antichain {B : Nat} {ls : List Label} {v : Vec}
    (h : AntichainStore ls) : AntichainStore (tryInsert B ls v).1 := by
  unfold tryInsert
  split
  · exact h
  · split
    · exact h
    · rename_i hB hany
      have hnole : ∀ l ∈ ls, ¬ vecLE l.vec v := by
        intro l hl hle
        apply hany
        rw [List.any_eq_true]
        exact ⟨l, hl, by simpa using hle⟩
      intro l1 hl1 l2 hl2
      rcases List.mem_append.mp hl1 with h1 | h1 <;>
        rcases List.mem_append.mp hl2 with h2 | h2
      · exact h l1 (List.mem_of_mem_filter h1) l2 (List.mem_of_mem_filter h2)
      · rw [List.mem_singleton.mp h2]
        intro hdom
        exact hnole l1 (List.mem_of_mem_filter h1) (dominates_vecLE hdom)
      · rw [List.mem_singleton.mp h1]
        have := List.of_mem_filter h2
        simpa using this
      · rw [List.mem_singleton.mp h1, List.mem_singleton.mp h2]
        exact dominates_irrefl v

/-- Coverage is monotone under `tryInsert`: a vector dominated-or-equalled by
some retained label stays dominated-or-equalled. -/
theorem tryInsert_cover_mono {B : Nat} {ls : List Label} {v w : Vec}
    (h : ∃ l ∈ ls, vecLE l.vec w) :
    ∃ l ∈ (tryInsert B ls v).1, vecLE l.vec w := by
  rcases h with ⟨l, hl, hle⟩
  unfold tryInsert
  split
  · exact ⟨l, hl, hle⟩
  · split
    · exact ⟨l, hl, hle⟩
    · by_cases hdom : dominates v l.vec
      · refine ⟨⟨v, false⟩, List.mem_append_right _ (List.mem_singleton.mpr rfl), ?_⟩
        exact vecLE_trans (dominates_vecLE hdom) hle
      · refine ⟨l, List.mem_append_left _ ?_, hle⟩
        exact List.mem_filter.mpr ⟨hl, by simpa using hdom⟩

/-- After inserting a within-budget candidate some retained label is below
or equal to it. -/
theorem tryInsert_covers {B : Nat} {ls : List Label} {v : Vec}
    (hv : v.1 ≤ B) : ∃ l ∈ (tryInsert B ls v).1, vecLE l.vec v := by
  unfold tryInsert
  rw [if_neg (Nat.not_lt.mpr hv)]
  split
  · rename_i hany
    rcases List.any_eq_true.mp hany with ⟨l, hl, hle⟩
    exact ⟨l, hl, by simpa using hle⟩
  · exact ⟨⟨v, false⟩, List.mem_append_right _ (List.mem_singleton.mpr rfl),
      vecLE_refl v⟩

theorem setStore_same (st : Stores) (u : Nat) (ls : List Label) :
    setStore st u ls u = ls := by
  simp [setStore]

theorem setStore_other {st : Stores} {u x : Nat} (ls : List Label)
    (h : x ≠ u) : setStore st u ls x = st x := by
  simp [setStore, h]

/-- A vector is covered at node `t` when some retained label is `≤` it. -/
def CoveredV (st : Stores) (t : Nat) (w : Vec) : Prop :=
  ∃ l ∈ st t, vecLE l.vec w

theorem mem_outgoing {g : WCGraph} {u : Nat} {e : Nat × Vec} :
    e ∈ outgoing g u ↔ ((u, e.1), e.2) ∈ g := by
  unfold outgoing
  rw [List.mem_filterMap]
  constructor
  · rintro ⟨ed, hed, h⟩
    split at h
    · rename_i hu
      rw [Option.some.injEq] at h
      rw [← h, ← hu]
      simpa using hed
    · cases h
  · intro h
    refine ⟨((u, e.1), e.2), h, ?_⟩
    simp

theorem mem_succG {g : WCGraph} {a b : Nat} :
    b ∈ succG g a ↔ ∃ w, ((a, b), w) ∈ g := by
  unfold succG
  rw [List.mem_map]
  constructor
  · rintro ⟨e, he, rfl⟩
    exact ⟨e.2, mem_outgoing.mp he⟩
  · rintro ⟨w, hw⟩
    exact ⟨(b, w), mem_outgoing.mpr hw, rfl⟩

theorem mem_addNodeN {ns : List Nat} {x y : Nat} :
    y ∈ addNodeN ns x ↔ y ∈ ns ∨ y = x := by
  unfold addNodeN
  split
  · constructor
    · exact Or.inl
    · rintro (h | rfl)
      · exact h
      · assumption
  · simp

theorem nodup_addNodeN {ns : List Nat} {x : Nat} (h : ns.Nodup) :
    (addNodeN ns x).Nodup := by
  unfold addNodeN
  split
  · exact h
  · rename_i hx
    rw [List.nodup_append]
    exact ⟨h, List.nodup_singleton x, by simpa using fun hm => hx hm⟩

theorem mem_nodesOfG_aux {x : Nat} :
    ∀ (g : WCGraph) (ns : List Nat),
      x ∈ g.foldl (fun ns e => addNodeN (addNodeN ns e.1.1) e.1.2) ns ↔
        x ∈ ns ∨ ∃ e ∈ g, x = e.1.1 ∨ x = e.1.2 := by
  intro g
  induction g with
  | nil => intro ns; simp
  | cons e g ih =>
    intro ns
    rw [List.foldl_cons, ih, mem_addNodeN, mem_addNodeN]
    constructor
    · rintro (((h | h) | h) | ⟨e', he', h⟩)
      · exact Or.inl h
      · exact Or.inr ⟨e, List.mem_cons_self e g, Or.inl h⟩
      · exact Or.inr ⟨e, List.mem_cons_self e g, Or.inr h⟩
      · exact Or.inr ⟨e', List.mem_cons_of_mem e he', h⟩
    · rintro (h | ⟨e', he', h⟩)
      · exact Or.inl (Or.inl (Or.inl h))
      · rcases List.mem_cons.mp he' with rfl | he'
        · rcases h with h | h
          · exact Or.inl (Or.inl (Or.inr h))
          · exact Or.inl (Or.inr h)
        · exact Or.inr ⟨e', he', h⟩

theorem mem_nodesOfG {g : WCGraph} {x : Nat} :
    x ∈ nodesOfG g ↔ ∃ e ∈ g, x = e.1.1 ∨ x = e.1.2 := by
  unfold nodesOfG
  rw [mem_nodesOfG_aux]
  simp

theorem nodup_nodesOfG_aux :
    ∀ (g : WCGraph) (ns : List Nat), ns.Nodup →
      (g.foldl (fun ns e => addNodeN (addNodeN ns e.1.1) e.1.2) ns).Nodup := by
  intro g
  induction g with
  | nil => intro ns h; exact h
  | cons e g ih =>
    intro ns h
    exact ih _ (nodup_addNodeN (nodup_addNodeN h))

theorem nodup_allNodes (g : WCGraph) (s : Nat) : (allNodes g s).Nodup :=
  nodup_addNodeN (nodup_nodesOfG_aux g [] List.nodup_nil)

theorem mem_allNodes {g : WCGraph} {s x : Nat} :
    x ∈ allNodes g s ↔ x ∈ nodesOfG g ∨ x = s :=
  mem_addNodeN

theorem source_mem_allNodes (g : WCGraph) (s : Nat) : s ∈ allNodes g s :=
  mem_allNodes.mpr (Or.inr rfl)

theorem outgoing_target_mem {g : WCGraph} {u : Nat} {e : Nat × Vec}
    (h : e ∈ outgoing g u) : e.1 ∈ nodesOfG g :=
  mem_nodesOfG.mpr ⟨((u, e.1), e.2), mem_outgoing.mp h, Or.inr rfl⟩

theorem relax_mem {B : Nat} {st : Stores} {t : Nat} {c : Vec} {x : Nat}
    {l : Label} (h : l ∈ relax B st t c x) :
    l ∈ st x ∨ (x = t ∧ c.1 ≤ B ∧ l = ⟨c, false⟩) := by
  unfold relax at h
  split at h
  · exact Or.inl h
  · rename_i hB
    by_cases hx : x = t
    · subst hx
      rw [setStore_same] at h
      rcases tryInsert_mem h with h | h
      · exact Or.inl h
      · exact Or.inr ⟨rfl, Nat.le_of_not_lt hB, h⟩
    · rw [setStore_other _ hx] at h
      exact Or.inl h

theorem relax_cover_mono {B : Nat} {st : Stores} {t : Nat} {c : Vec}
    {x : Nat} {w : Vec} (h : CoveredV st x w) :
    CoveredV (relax B st t c) x w := by
  unfold relax
  split
  · exact h
  · by_cases hx : x = t
    · subst hx
      unfold CoveredV
      rw [setStore_same]
      exact tryInsert_cover_mono h
    · unfold CoveredV
      rw [setStore_other _ hx]
      exact h

theorem relax_covers {B : Nat} {st : Stores} {t : Nat} {c : Vec}
    (hc : c.1 ≤ B) : CoveredV (relax B st t c) t c := by
  unfold relax
  rw [if_neg (Nat.not_lt.mpr hc)]
  unfold CoveredV
  rw [setStore_same]
  exact tryInsert_covers hc

theorem relax_antichain {B : Nat} {st : Stores} {t : Nat} {c : Vec}
    (h : ∀ x, AntichainStore (st x)) :
    ∀ x, AntichainStore (relax B st t c x) := by
  intro x
  unfold relax
  split
  · exact h x
  · by_cases hx : x = t
    · subst hx
      rw [setStore_same]
      exact tryInsert_antichain (h x)
    · rw [setStore_other _ hx]
      exact h x

theorem relax_apply_other {B : Nat} {st : Stores} {t : Nat} {c : Vec}
    {x : Nat} (hx : x ≠ t) : relax B st t c x = st x := by
  unfold relax
  split
  · rfl
  · exact setStore_other _ hx

/-- Extension coverage of the vector `v` at node `u`: every outgoing
extension of `v` is over budget or covered at its target. -/
def TECov (g : WCGraph) (B : Nat) (st : Stores) (u : Nat) (v : Vec) : Prop :=
  ∀ e ∈ outgoing g u, B < (vadd v e.2).1 ∨ CoveredV st e.1 (vadd v e.2)

/-- Every treated retained label has been extended: its extensions are over
budget or covered at their targets. -/
def TreatInv (g : WCGraph) (B : Nat) (st : Stores) : Prop :=
  ∀ x, ∀ l ∈ st x, l.treated = true → TECov g B st x l.vec

/-- Standing invariants of the per-node stores during a run: soundness
(every retained vector is walk-reachable within budget), the antichain
invariant, emptiness outside the touched nodes, and coverage of the zero
label at the source. -/
def GoodStores (g : WCGraph) (s B : Nat) (st : Stores) : Prop :=
  (∀ x, ∀ l ∈ st x, Reach g s x l.vec ∧ l.vec.1 ≤ B) ∧
  (∀ x, AntichainStore (st x)) ∧
  (∀ x, x ∉ allNodes g s → st x = []) ∧
  CoveredV st s (0, 0)

theorem TECov_mono {g : WCGraph} {B : Nat} {st st' : Stores} {u : Nat}
    {v : Vec} (hmono : ∀ x w, CoveredV st x w → CoveredV st' x w)
    (h : TECov g B st u v) : TECov g B st' u v := by
  intro e he
  rcases h e he with h | h
  · exact Or.inl h
  · exact Or.inr (hmono _ _ h)

theorem relax_good {g : WCGraph} {s B : Nat} {st : Stores} {t : Nat}
    {c : Vec} (hg : GoodStores g s B st) (hr : Reach g s t c)
    (ht : t ∈ allNodes g s) : GoodStores g s B (relax B st t c) := by
  obtain ⟨hsound, hanti, hsupp, hsrc⟩ := hg
  refine ⟨?_, relax_antichain hanti, ?_, relax_cover_mono hsrc⟩
  · intro x l hl
    rcases relax_mem hl with h | ⟨rfl, hle, rfl⟩
    · exact hsound x l h
    · exact ⟨hr, hle⟩
  · intro x hx
    have hxt : x ≠ t := by
      intro h
      rw [h] at hx
      exact hx ht
    rw [relax_apply_other hxt]
    exact hsupp x hx

theorem relax_treatInv {g : WCGraph} {B : Nat} {st : Stores} {t : Nat}
    {c : Vec} (h : TreatInv g B st) : TreatInv g B (relax B st t c) := by
  intro x l hl htr
  rcases relax_mem hl with hmem | ⟨-, -, rfl⟩
  · exact TECov_mono (fun x w => relax_cover_mono) (h x l hmem htr)
  · cases htr

theorem extend_aux {g : WCGraph} {s B u : Nat} {v : Vec}
    (hr : Reach g s u v) :
    ∀ (es : List (Nat × Vec)) (st : Stores), (∀ e ∈ es, e ∈ outgoing g u) →
      GoodStores g s B st →
      GoodStores g s B
          (es.foldl (fun st e => relax B st e.1 (vadd v e.2)) st) ∧
        (TreatInv g B st →
          TreatInv g B
            (es.foldl (fun st e => relax B st e.1 (vadd v e.2)) st)) ∧
        (∀ x w, CoveredV st x w →
          CoveredV (es.foldl (fun st e => relax B st e.1 (vadd v e.2)) st) x w) ∧
        (∀ e ∈ es, B < (vadd v e.2).1 ∨
          CoveredV (es.foldl (fun st e => relax B st e.1 (vadd v e.2)) st)
            e.1 (vadd v e.2)) := by
  intro es
  induction es with
  | nil =>
    intro st _ hgood
    exact ⟨hgood, fun h => h, fun x w h => h, by intro e he; cases he⟩
  | cons e es ih =>
    intro st hes hgood
    have heo : e ∈ outgoing g u := hes e (List.mem_cons_self e es)
    have hrc : Reach g s e.1 (vadd v e.2) :=
      Reach.step hr (mem_outgoing.mp heo)
    have hte : e.1 ∈ allNodes g s :=
      mem_allNodes.mpr (Or.inl (outgoing_target_mem heo))
    have hgood1 : GoodStores g s B (relax B st e.1 (vadd v e.2)) :=
      relax_good hgood hrc hte
    rcases ih (relax B st e.1 (vadd v e.2))
        (fun e' he' => hes e' (List.mem_cons_of_mem e he')) hgood1 with
      ⟨hgood', htreat', hmono', hcov'⟩
    rw [List.foldl_cons]
    refine ⟨hgood', ?_, ?_, ?_⟩
    · intro ht
      exact htreat' (relax_treatInv ht)
    · intro x w hc
      exact hmono' x w (relax_cover_mono hc)
    · intro e' he'
      rcases List.mem_cons.mp he' with rfl | he'
      · by_cases hB : B < (vadd v e'.2).1
        · exact Or.inl hB
        · exact Or.inr (hmono' _ _ (relax_covers (Nat.le_of_not_lt hB)))
      · exact hcov' e' he'

theorem extend_pack {g : WCGraph} {s B u : Nat} {v : Vec} {st : Stores}
    (hr : Reach g s u v) (hgood : GoodStores g s B st) :
    GoodStores g s B (extend g B u v st) ∧
      (TreatInv g B st → TreatInv g B (extend g B u v st)) ∧
      (∀ x w, CoveredV st x w → CoveredV (extend g B u v st) x w) ∧
      TECov g B (extend g B u v st) u v :=
  extend_aux hr (outgoing g u) st (fun _ he => he) hgood

theorem extendV1_stores (g : WCGraph) (B u : Nat) (v : Vec) (σ : StateV1) :
    (extendV1 g B u v σ).stores = extend g B u v σ.stores := by
  unfold extendV1 extend
  generalize outgoing g u = es
  induction es generalizing σ with
  | nil => rfl
  | cons e es ih =>
    rw [List.foldl_cons, List.foldl_cons, ih]
    rfl

/-- Worklist safety: every untreated retained label's node is dirty. -/
def WlInvP (σ : StateV1) : Prop :=
  ∀ x l, l ∈ σ.stores x → l.treated = false → x ∈ σ.worklist

theorem relaxV1_wl_mono {B : Nat} {σ : StateV1} {t : Nat} {c : Vec} {x : Nat}
    (h : x ∈ σ.worklist) : x ∈ (relaxV1 B σ t c).worklist := by
  unfold relaxV1
  dsimp only
  split
  · exact List.mem_append_left _ h
  · exact h

theorem relaxV1_wlinv {B : Nat} {σ : StateV1} {t : Nat} {c : Vec}
    (h : WlInvP σ) : WlInvP (relaxV1 B σ t c) := by
  intro x l hl htr
  have hst : (relaxV1 B σ t c).stores = relax B σ.stores t c := rfl
  rw [hst] at hl
  unfold relax at hl
  split at hl
  · rename_i hB
    have hacc : accepted B σ.stores t c = false := by
      unfold accepted
      simp [hB]
    exact relaxV1_wl_mono (h x l hl htr)
  · rename_i hB
    by_cases hx : x = t
    · subst hx
      rw [setStore_same] at hl
      by_cases haccept : (tryInsert B (σ.stores x) c).2 = true
      · unfold relaxV1
        dsimp only
        split
        · exact List.mem_append_right _ (List.mem_singleton.mpr rfl)
        · rename_i hcond
          have hacc : accepted B σ.stores x c = true := by
            unfold accepted
            rw [haccept]
            simpa using hB
          by_cases hmem : x ∈ σ.worklist
          · exact hmem
          · exact absurd ⟨hacc, hmem⟩ hcond
      · rw [Bool.not_eq_true] at haccept
        rw [tryInsert_rejected haccept] at hl
        exact relaxV1_wl_mono (h x l hl htr)
    · rw [setStore_other _ hx] at hl
      exact relaxV1_wl_mono (h x l hl htr)

theorem extendV1_wlinv {g : WCGraph} {B u : Nat} {v : Vec} {σ : StateV1}
    (h : WlInvP σ) : WlInvP (extendV1 g B u v σ) := by
  unfold extendV1
  generalize outgoing g u = es
  induction es generalizing σ with
  | nil => exact h
  | cons e es ih =>
    rw [List.foldl_cons]
    exact ih (relaxV1_wlinv h)

theorem mem_markAllTreated {ls : List Label} {l : Label} :
    l ∈ markAllTreated ls ↔ ∃ l0 ∈ ls, l = ⟨l0.vec, true⟩ := by
  unfold markAllTreated
  rw [List.mem_map]
  constructor
  · rintro ⟨l0, hl0, rfl⟩
    exact ⟨l0, hl0, rfl⟩
  · rintro ⟨l0, hl0, rfl⟩
    exact ⟨l0, hl0, rfl⟩

theorem mark_cover_mono {stores : Stores} {u x : Nat} {w : Vec}
    (h : CoveredV stores x w) :
    CoveredV (setStore stores u (markAllTreated (stores u))) x w := by
  by_cases hx : x = u
  · subst hx
    rcases h with ⟨l, hl, hle⟩
    unfold CoveredV
    rw [setStore_same]
    exact ⟨⟨l.vec, true⟩, mem_markAllTreated.mpr ⟨l, hl, rfl⟩, hle⟩
  · unfold CoveredV
    rw [setStore_other _ hx]
    exact h

theorem mark_good {g : WCGraph} {s B : Nat} {stores : Stores} {u : Nat}
    (hg : GoodStores g s B stores) :
    GoodStores g s B (setStore stores u (markAllTreated (stores u))) := by
  obtain ⟨hsound, hanti, hsupp, hsrc⟩ := hg
  refine ⟨?_, ?_, ?_, mark_cover_mono hsrc⟩
  · intro x l hl
    by_cases hx : x = u
    · subst hx
      rw [setStore_same] at hl
      rcases mem_markAllTreated.mp hl with ⟨l0, hl0, rfl⟩
      exact hsound x l0 hl0
    · rw [setStore_other _ hx] at hl
      exact hsound x l hl
  · intro x
    by_cases hx : x = u
    · subst hx
      rw [setStore_same]
      intro l1 h1 l2 h2
      rcases mem_markAllTreated.mp h1 with ⟨a, ha, rfl⟩
      rcases mem_markAllTreated.mp h2 with ⟨b, hb, rfl⟩
      exact hanti x a ha b hb
    · rw [setStore_other _ hx]
      exact hanti x
  · intro x hx
    by_cases hxu : x = u
    · subst hxu
      rw [setStore_same, hsupp x hx]
      rfl
    · rw [setStore_other _ hxu]
      exact hsupp x hx

theorem extend_mem_or_untreated {B : Nat} {v : Vec} :
    ∀ (es : List (Nat × Vec)) (st : Stores) (x : Nat) (l : Label),
      l ∈ es.foldl (fun st e => relax B st e.1 (vadd v e.2)) st x →
      l ∈ st x ∨ l.treated = false := by
  intro es
  induction es with
  | nil =>
    intro st x l hl
    exact Or.inl hl
  | cons e es ih =>
    intro st x l hl
    rw [List.foldl_cons] at hl
    rcases ih _ x l hl with h | h
    · rcases relax_mem h with h | ⟨-, -, rfl⟩
      · exact Or.inl h
      · exact Or.inr rfl
    · exact Or.inr h

theorem extend_mem {g : WCGraph} {B u : Nat} {v : Vec} {st : Stores}
    {x : Nat} {l : Label} (h : l ∈ extend g B u v st x) :
    l ∈ st x ∨ l.treated = false := by
  unfold extend at h
  exact extend_mem_or_untreated _ _ _ _ h

/-- Full invariant of a correcting-strategy state. -/
def StateInvV1 (g : WCGraph) (s B : Nat) (σ : StateV1) : Prop :=
  GoodStores g s B σ.stores ∧ TreatInv g B σ.stores ∧ WlInvP σ

theorem foldExtend_inv {g : WCGraph} {s B u : Nat} :
    ∀ (U : List Label) (σ : StateV1),
      GoodStores g s B σ.stores → WlInvP σ →
      (∀ lu ∈ U, Reach g s u lu.vec) →
      (∀ x l, l ∈ σ.stores x → l.treated = true →
        TECov g B σ.stores x l.vec ∨ (x = u ∧ ∃ lu ∈ U, l.vec = lu.vec)) →
      StateInvV1 g s B (U.foldl (fun σ l => extendV1 g B u l.vec σ) σ) := by
  intro U
  induction U with
  | nil =>
    intro σ hgood hwl hreach hpend
    refine ⟨hgood, ?_, hwl⟩
    intro x l hl htr
    rcases hpend x l hl htr with h | ⟨-, lu, hlu, -⟩
    · exact h
    · cases hlu
  | cons lu U ih =>
    intro σ hgood hwl hreach hpend
    rw [List.foldl_cons]
    have hrl : Reach g s u lu.vec := hreach lu (List.mem_cons_self lu U)
    rcases extend_pack hrl hgood with ⟨hgood1, _, hmono1, hte1⟩
    refine ih (extendV1 g B u lu.vec σ) ?_ (extendV1_wlinv hwl)
      (fun lu' h => hreach lu' (List.mem_cons_of_mem lu h)) ?_
    · rw [extendV1_stores]
      exact hgood1
    · intro x l hl htr
      rw [extendV1_stores] at hl
      rcases extend_mem hl with hmem | hfalse
      · rcases hpend x l hmem htr with hte | ⟨rfl, lu', hlu', hveq⟩
        · left
          rw [extendV1_stores]
          exact TECov_mono hmono1 hte
        · rcases List.mem_cons.mp hlu' with rfl | hlu'
          · left
            rw [extendV1_stores, hveq]
            exact hte1
          · right
            exact ⟨rfl, lu', hlu', hveq⟩
      · rw [htr] at hfalse
        cases hfalse

theorem stepV1_inv {g : WCGraph} {s B : Nat} {stores : Stores} {u : Nat}
    {rest : List Nat} (hg : GoodStores g s B stores)
    (ht : TreatInv g B stores) (hw : WlInvP ⟨stores, u :: rest⟩) :
    StateInvV1 g s B (stepV1 g B stores u rest) := by
  show StateInvV1 g s B
    (((stores u).filter (fun l => !l.treated)).foldl
      (fun σ l => extendV1 g B u l.vec σ)
      ⟨setStore stores u (markAllTreated (stores u)), rest⟩)
  refine foldExtend_inv _ _ (mark_good hg) ?_ ?_ ?_
  · intro x l hl hfalse
    dsimp only at hl ⊢
    by_cases hx : x = u
    · subst hx
      rw [setStore_same] at hl
      rcases mem_markAllTreated.mp hl with ⟨l0, -, rfl⟩
      cases hfalse
    · rw [setStore_other _ hx] at hl
      rcases List.mem_cons.mp (hw x l hl hfalse) with rfl | h
      · exact absurd rfl hx
      · exact h
  · intro lu hlu
    exact (hg.1 u lu (List.mem_of_mem_filter hlu)).1
  · intro x l hl htr
    dsimp only at hl
    by_cases hx : x = u
    · subst hx
      rw [setStore_same] at hl
      rcases mem_markAllTreated.mp hl with ⟨l0, hl0, rfl⟩
      cases h0 : l0.treated
      · right
        refine ⟨rfl, l0, List.mem_filter.mpr ⟨hl0, by simp [h0]⟩, rfl⟩
      · left
        exact TECov_mono (fun x w h => mark_cover_mono h) (ht x l0 hl0 h0)
    · rw [setStore_other _ hx] at hl
      left
      exact TECov_mono (fun x w h => mark_cover_mono h) (ht x l hl htr)

theorem loopV1_some {g : WCGraph} {s B : Nat} :
    ∀ (fuel : Nat) (σ : StateV1) (st : Stores),
      loopV1 g B fuel σ = some st → StateInvV1 g s B σ →
      GoodStores g s B st ∧ TreatInv g B st ∧
        ∀ x, ∀ l ∈ st x, l.treated = true := by
  intro fuel
  induction fuel with
  | zero =>
    rintro ⟨stores, wl⟩ st h hinv
    cases wl with
    | nil =>
      simp only [loopV1, Option.some.injEq] at h
      subst h
      refine ⟨hinv.1, hinv.2.1, ?_⟩
      intro x l hl
      cases htr : l.treated
      · exact absurd (hinv.2.2 x l hl htr) (List.not_mem_nil x)
      · rfl
    | cons u rest =>
      simp only [loopV1] at h
      exact Option.noConfusion h
  | succ fuel ih =>
    rintro ⟨stores, wl⟩ st h hinv
    cases wl with
    | nil =>
      simp only [loopV1, Option.some.injEq] at h
      subst h
      refine ⟨hinv.1, hinv.2.1, ?_⟩
      intro x l hl
      cases htr : l.treated
      · exact absurd (hinv.2.2 x l hl htr) (List.not_mem_nil x)
      · rfl
    | cons u rest =>
      simp only [loopV1] at h
      exact ih _ st h (stepV1_inv hinv.1 hinv.2.1 hinv.2.2)

theorem final_covered {g : WCGraph} {s B : Nat} {st : Stores}
    (hgood : GoodStores g s B st) (ht : TreatInv g B st)
    (halltr : ∀ x, ∀ l ∈ st x, l.treated = true) :
    ∀ t w, Reach g s t w → w.1 ≤ B → CoveredV st t w := by
  intro t w hr
  induction hr with
  | source =>
    intro _
    exact hgood.2.2.2
  | step hru hedge ihr =>
    rename_i u t' w' acc
    intro hB
    have hacc : acc.1 ≤ B := by
      rw [vadd_fst] at hB
      omega
    rcases ihr hacc with ⟨l, hl, hle⟩
    have hte := ht u l hl (halltr u l hl)
    have hout : ((t' : Nat), w') ∈ outgoing g u := mem_outgoing.mpr hedge
    rcases hte (t', w') hout with h | h
    · exfalso
      dsimp only at h
      rw [vadd_fst] at h hB
      have := hle.1
      omega
    · rcases h with ⟨l2, hl2, hle2⟩
      exact ⟨l2, hl2, vecLE_trans hle2 (vecLE_vadd_right w' hle)⟩

/-- An antichain store that soundly covers a set of vectors consists exactly
of the minimal elements of that set. -/
theorem frontier_eq_min {S : Vec → Prop} {ls : List Label}
    (anti : AntichainStore ls) (sound : ∀ l ∈ ls, S l.vec)
    (cov : ∀ w, S w → ∃ l ∈ ls, vecLE l.vec w) :
    ∀ v, (∃ l ∈ ls, l.vec = v) ↔ S v ∧ ∀ w, S w → ¬ dominates w v := by
  intro v
  constructor
  · rintro ⟨l, hl, rfl⟩
    refine ⟨sound l hl, ?_⟩
    intro w hw hdom
    rcases cov w hw with ⟨l2, hl2, hle2⟩
    have h2v : vecLE l2.vec l.vec := vecLE_trans hle2 (dominates_vecLE hdom)
    have hne : l2.vec ≠ l.vec := by
      intro he
      apply hdom.2
      apply vecLE_antisymm (dominates_vecLE hdom)
      rw [← he]
      exact hle2
    exact anti l2 hl2 l hl ⟨h2v, hne⟩
  · rintro ⟨hS, hmin⟩
    rcases cov v hS with ⟨l, hl, hle⟩
    have hnd : ¬ dominates l.vec v := hmin l.vec (sound l hl)
    have heq : l.vec = v := by
      by_contra hne
      exact hnd ⟨hle, hne⟩
    exact ⟨l, hl, heq⟩

theorem mem_initStores {s x : Nat} {l : Label} :
    l ∈ initStores s x ↔ x = s ∧ l = ⟨(0, 0), false⟩ := by
  unfold initStores
  split
  · rename_i h
    simp [h]
  · rename_i h
    simp [h]

theorem initStores_inv (g : WCGraph) (s B : Nat) :
    StateInvV1 g s B ⟨initStores s, [s]⟩ := by
  have hmem : (⟨(0, 0), false⟩ : Label) ∈ initStores s s :=
    mem_initStores.mpr ⟨rfl, rfl⟩
  refine ⟨⟨?_, ?_, ?_, ⟨_, hmem, vecLE_refl (0, 0)⟩⟩, ?_, ?_⟩
  · intro x l hl
    rcases mem_initStores.mp hl with ⟨rfl, rfl⟩
    exact ⟨Reach.source, Nat.zero_le B⟩
  · intro x l1 h1 l2 h2
    rcases mem_initStores.mp h1 with ⟨rfl, rfl⟩
    rcases mem_initStores.mp h2 with ⟨-, rfl⟩
    exact dominates_irrefl _
  · intro x hx
    have hxs : x ≠ s := by
      intro h
      rw [h] at hx
      exact hx (source_mem_allNodes g s)
    show initStores s x = []
    unfold initStores
    rw [if_neg hxs]
  · intro x l hl htr
    rcases mem_initStores.mp hl with ⟨rfl, rfl⟩
    cases htr
  · intro x l hl hfalse
    rcases mem_initStores.mp hl with ⟨rfl, rfl⟩
    exact List.mem_singleton.mpr rfl

/-- A completed correcting run's store at each node is exactly the Pareto
frontier of the walk-reachable within-budget vectors. -/
theorem v1_frontier {g : WCGraph} {s B fuel : Nat} {prior st : Stores}
    (h : run_algorithm_v1 prior g s B fuel = some st) :
    ∀ t v, (∃ l ∈ st t, l.vec = v) ↔
      (Reach g s t v ∧ v.1 ≤ B) ∧
        ∀ w, Reach g s t w ∧ w.1 ≤ B → ¬ dominates w v := by
  unfold run_algorithm_v1 at h
  rcases loopV1_some fuel _ st h (initStores_inv g s B) with
    ⟨hgood, htreat, halltr⟩
  intro t v
  exact frontier_eq_min (S := fun w => Reach g s t w ∧ w.1 ≤ B) (hgood.2.1 t)
    (fun l hl => hgood.1 t l hl)
    (fun w hw => final_covered hgood htreat halltr t w hw.1 hw.2) v

theorem mem_untreatedPairs {nodes : List Nat} {st : Stores} {u : Nat}
    {v : Vec} :
    (u, v) ∈ untreatedPairs nodes st ↔
      u ∈ nodes ∧ ∃ l ∈ st u, l.treated = false ∧ l.vec = v := by
  unfold untreatedPairs
  rw [List.mem_flatMap]
  constructor
  · rintro ⟨u', hu', hmem⟩
    rcases List.mem_map.mp hmem with ⟨l, hl, heq⟩
    rw [Prod.mk.injEq] at heq
    rcases heq with ⟨rfl, rfl⟩
    rcases List.mem_filter.mp hl with ⟨hl0, hfl⟩
    exact ⟨hu', l, hl0, by simpa using hfl, rfl⟩
  · rintro ⟨hu, l, hl, hfl, rfl⟩
    refine ⟨u, hu, List.mem_map.mpr ⟨l, ?_, rfl⟩⟩
    exact List.mem_filter.mpr ⟨hl, by simpa using hfl⟩

theorem foldl_choice_mem :
    ∀ (xs : List (Nat × Vec)) (x : Nat × Vec),
      xs.foldl (fun m y => if lexLT y.2 m.2 then y else m) x ∈ x :: xs := by
  intro xs
  induction xs with
  | nil => intro x; exact List.mem_singleton.mpr rfl
  | cons y xs ih =>
    intro x
    rw [List.foldl_cons]
    rcases List.mem_cons.mp (ih (if lexLT y.2 x.2 then y else x)) with h | h
    · rw [h]
      split
      · exact List.mem_cons_of_mem x (List.mem_cons_self y xs)
      · exact List.mem_cons_self x (y :: xs)
    · exact List.mem_cons_of_mem x (List.mem_cons_of_mem y h)

theorem minUntreated_some_mem {nodes : List Nat} {st : Stores} {u : Nat}
    {v : Vec} (h : minUntreated nodes st = some (u, v)) :
    (u, v) ∈ untreatedPairs nodes st := by
  unfold minUntreated at h
  split at h
  · cases h
  · rename_i x xs heq
    rw [Option.some.injEq] at h
    have hm := foldl_choice_mem xs x
    rw [h] at hm
    rw [heq]
    exact hm

theorem minUntreated_none {nodes : List Nat} {st : Stores}
    (h : minUntreated nodes st = none) :
    ∀ u ∈ nodes, ∀ l ∈ st u, l.treated = true := by
  intro u hu l hl
  cases htr : l.treated
  · exfalso
    have hmem : (u, l.vec) ∈ untreatedPairs nodes st :=
      mem_untreatedPairs.mpr ⟨hu, l, hl, htr, rfl⟩
    unfold minUntreated at h
    split at h
    · rename_i heq
      rw [heq] at hmem
      cases hmem
    · cases h
  · rfl

theorem mem_markTreated :
    ∀ {ls : List Label} {v : Vec} {l : Label}, l ∈ markTreated ls v →
      ∃ l0 ∈ ls, l.vec = l0.vec := by
  intro ls
  induction ls with
  | nil =>
    intro v l hl
    cases hl
  | cons a ls ih =>
    intro v l hl
    rw [markTreated] at hl
    split at hl
    · rcases List.mem_cons.mp hl with rfl | hl
      · exact ⟨a, List.mem_cons_self a ls, rfl⟩
      · exact ⟨l, List.mem_cons_of_mem a hl, rfl⟩
    · rcases List.mem_cons.mp hl with rfl | hl
      · exact ⟨l, List.mem_cons_self l ls, rfl⟩
      · rcases ih hl with ⟨l0, hl0, hv⟩
        exact ⟨l0, List.mem_cons_of_mem a hl0, hv⟩

theorem mem_markTreated_treated :
    ∀ {ls : List Label} {v : Vec} {l : Label}, l ∈ markTreated ls v →
      l.treated = true →
      (∃ l0 ∈ ls, l0.treated = true ∧ l.vec = l0.vec) ∨ l.vec = v := by
  intro ls
  induction ls with
  | nil =>
    intro v l hl
    cases hl
  | cons a ls ih =>
    intro v l hl htr
    rw [markTreated] at hl
    split at hl
    · rename_i hcond
      rcases List.mem_cons.mp hl with rfl | hl
      · exact Or.inr hcond.1
      · exact Or.inl ⟨l, List.mem_cons_of_mem a hl, htr, rfl⟩
    · rcases List.mem_cons.mp hl with rfl | hl
      · exact Or.inl ⟨l, List.mem_cons_self l ls, htr, rfl⟩
      · rcases ih hl htr with ⟨l0, hl0, h0, hv⟩ | hv
        · exact Or.inl ⟨l0, List.mem_cons_of_mem a hl0, h0, hv⟩
        · exact Or.inr hv

theorem markTreated_mem_rev :
    ∀ {ls : List Label} {v : Vec} {l0 : Label}, l0 ∈ ls →
      ∃ l ∈ markTreated ls v, l.vec = l0.vec := by
  intro ls
  induction ls with
  | nil =>
    intro v l0 hl0
    cases hl0
  | cons a ls ih =>
    intro v l0 hl0
    rw [markTreated]
    split
    · rcases List.mem_cons.mp hl0 with rfl | hl0
      · exact ⟨⟨l0.vec, true⟩, List.mem_cons_self _ _, rfl⟩
      · exact ⟨l0, List.mem_cons_of_mem _ hl0, rfl⟩
    · rcases List.mem_cons.mp hl0 with rfl | hl0
      · exact ⟨l0, List.mem_cons_self _ _, rfl⟩
      · rcases ih (v := v) hl0 with ⟨l, hl, hv⟩
        exact ⟨l, List.mem_cons_of_mem _ hl, hv⟩

theorem markTreated_cover_mono {st : Stores} {u : Nat} {v : Vec} {x : Nat}
    {w : Vec} (h : CoveredV st x w) :
    CoveredV (setStore st u (markTreated (st u) v)) x w := by
  by_cases hx : x = u
  · subst hx
    rcases h with ⟨l, hl, hle⟩
    rcases markTreated_mem_rev (v := v) hl with ⟨l', hl', hv⟩
    unfold CoveredV
    rw [setStore_same]
    refine ⟨l', hl', ?_⟩
    rw [hv]
    exact hle
  · unfold CoveredV
    rw [setStore_other _ hx]
    exact h

theorem markTreated_good {g : WCGraph} {s B : Nat} {st : Stores} {u : Nat}
    {v : Vec} (hg : GoodStores g s B st) :
    GoodStores g s B (setStore st u (markTreated (st u) v)) := by
  obtain ⟨hsound, hanti, hsupp, hsrc⟩ := hg
  refine ⟨?_, ?_, ?_, markTreated_cover_mono hsrc⟩
  · intro x l hl
    by_cases hx : x = u
    · subst hx
      rw [setStore_same] at hl
      rcases mem_markTreated hl with ⟨l0, hl0, hv⟩
      rw [hv]
      exact hsound x l0 hl0
    · rw [setStore_other _ hx] at hl
      exact hsound x l hl
  · intro x
    by_cases hx : x = u
    · subst hx
      rw [setStore_same]
      intro l1 h1 l2 h2
      rcases mem_markTreated h1 with ⟨a, ha, hva⟩
      rcases mem_markTreated h2 with ⟨b, hb, hvb⟩
      rw [hva, hvb]
      exact hanti x a ha b hb
    · rw [setStore_other _ hx]
      exact hanti x
  · intro x hx
    by_cases hxu : x = u
    · subst hxu
      rw [setStore_same, hsupp x hx]
      rfl
    · rw [setStore_other _ hxu]
      exact hsupp x hx

/-- Invariant of a setting-strategy state. -/
def StateInvV2 (g : WCGraph) (s B : Nat) (st : Stores) : Prop :=
  GoodStores g s B st ∧ TreatInv g B st

theorem stepV2_inv {g : WCGraph} {s B : Nat} {st : Stores} {u : Nat} {v : Vec}
    (hinv : StateInvV2 g s B st) (hr : Reach g s u v) :
    StateInvV2 g s B (stepV2 g B st u v) := by
  obtain ⟨hgood, htreat⟩ := hinv
  have hgood1 : GoodStores g s B (setStore st u (markTreated (st u) v)) :=
    markTreated_good hgood
  rcases extend_pack hr hgood1 with ⟨hgood2, _, hmono2, hte2⟩
  refine ⟨hgood2, ?_⟩
  intro x l hl htr
  unfold stepV2 at hl
  rcases extend_mem hl with hmem | hfalse
  · by_cases hx : x = u
    · subst hx
      rw [setStore_same] at hmem
      rcases mem_markTreated_treated hmem htr with ⟨l0, hl0, h0, hv⟩ | hv
      · rw [hv]
        exact TECov_mono hmono2
          (TECov_mono (fun x w h => markTreated_cover_mono h)
            (htreat x l0 hl0 h0))
      · rw [hv]
        exact hte2
    · rw [setStore_other _ hx] at hmem
      exact TECov_mono hmono2
        (TECov_mono (fun x w h => markTreated_cover_mono h)
          (htreat x l hmem htr))
  · rw [htr] at hfalse
    cases hfalse

theorem loopV2_some {g : WCGraph} {s B : Nat} :
    ∀ (fuel : Nat) (st0 st : Stores),
      loopV2 g B (allNodes g s) fuel st0 = some st →
      StateInvV2 g s B st0 →
      GoodStores g s B st ∧ TreatInv g B st ∧
        ∀ x, ∀ l ∈ st x, l.treated = true := by
  intro fuel
  induction fuel with
  | zero =>
    intro st0 st h hinv
    cases hmu : minUntreated (allNodes g s) st0 with
    | none =>
      simp only [loopV2, hmu, Option.some.injEq] at h
      subst h
      refine ⟨hinv.1, hinv.2, ?_⟩
      intro x l hl
      by_cases hx : x ∈ allNodes g s
      · exact minUntreated_none hmu x hx l hl
      · rw [hinv.1.2.2.1 x hx] at hl
        cases hl
    | some p =>
      simp only [loopV2, hmu] at h
      exact Option.noConfusion h
  | succ fuel ih =>
    intro st0 st h hinv
    cases hmu : minUntreated (allNodes g s) st0 with
    | none =>
      simp only [loopV2, hmu, Option.some.injEq] at h
      subst h
      refine ⟨hinv.1, hinv.2, ?_⟩
      intro x l hl
      by_cases hx : x ∈ allNodes g s
      · exact minUntreated_none hmu x hx l hl
      · rw [hinv.1.2.2.1 x hx] at hl
        cases hl
    | some p =>
      obtain ⟨u, v⟩ := p
      simp only [loopV2, hmu] at h
      have hmem := minUntreated_some_mem hmu
      rcases mem_untreatedPairs.mp hmem with ⟨-, l, hl, -, hvec⟩
      exact ih _ st h (stepV2_inv hinv (hvec ▸ (hinv.1.1 u l hl).1))

/-- A completed setting run's store at each node is exactly the Pareto
frontier of the walk-reachable within-budget vectors. -/
theorem v2_frontier {g : WCGraph} {s B fuel : Nat} {prior st : Stores}
    (h : run_algorithm_v2 prior g s B fuel = some st) :
    ∀ t v, (∃ l ∈ st t, l.vec = v) ↔
      (Reach g s t v ∧ v.1 ≤ B) ∧
        ∀ w, Reach g s t w ∧ w.1 ≤ B → ¬ dominates w v := by
  unfold run_algorithm_v2 at h
  have hinit : StateInvV2 g s B (initStores s) :=
    ⟨(initStores_inv g s B).1, (initStores_inv g s B).2.1⟩
  rcases loopV2_some fuel _ st h hinit with ⟨hgood, htreat, halltr⟩
  intro t v
  exact frontier_eq_min (S := fun w => Reach g s t w ∧ w.1 ≤ B) (hgood.2.1 t)
    (fun l hl => hgood.1 t l hl)
    (fun w hw => final_covered hgood htreat halltr t w hw.1 hw.2) v

/-- A directed edge from `a` to `b` exists in the edge dict. -/
def HasEdge (g : WCGraph) (a b : Nat) : Prop := ∃ w, ((a, b), w) ∈ g

/-- A walk of the graph from `s` to `t`: a nonempty node sequence whose
consecutive pairs are edges. -/
def GWalk (g : WCGraph) (s t : Nat) (p : List Nat) : Prop :=
  p ≠ [] ∧ p.head? = some s ∧ p.getLast? = some t ∧
    List.Chain' (HasEdge g) p

/-- A simple path of the graph from `s` to `t`. -/
def GPath (g : WCGraph) (s t : Nat) (p : List Nat) : Prop :=
  GWalk g s t p ∧ p.Nodup

theorem edgeVec_eq {g : WCGraph} (hg : (g.map (fun e => e.1)).Nodup)
    {a b : Nat} {w : Vec} (h : ((a, b), w) ∈ g) : edgeVec g a b = w := by
  induction g with
  | nil => cases h
  | cons e g ih =>
    rw [List.map_cons, List.nodup_cons] at hg
    unfold edgeVec
    rcases List.mem_cons.mp h with rfl | h
    · rw [List.find?_cons_of_pos _ (by simp)]
      rfl
    · have hne : (e.1 == (a, b)) = false := by
        rw [beq_eq_false_iff_ne]
        intro heq
        apply hg.1
        rw [heq]
        exact List.mem_map.mpr ⟨((a, b), w), h, rfl⟩
      rw [List.find?_cons_of_neg _ (by simp [hne])]
      exact ih hg.2 h

theorem pathVec_single (g : WCGraph) (a : Nat) : pathVec g [a] = (0, 0) := rfl

theorem vadd_zero_left (a : Vec) : vadd (0, 0) a = a := by
  unfold vadd
  exact Prod.ext (Nat.zero_add _) (Nat.zero_add _)

theorem pathVec_concat {g : WCGraph} :
    ∀ (p : List Nat) (u t : Nat), p.getLast? = some u →
      pathVec g (p ++ [t]) = vadd (pathVec g p) (edgeVec g u t) := by
  intro p
  induction p with
  | nil =>
    intro u t h
    cases h
  | cons a p ih =>
    intro u t h
    cases p with
    | nil =>
      have hu : a = u := by simpa using h
      subst hu
      show vadd (edgeVec g a t) (pathVec g [t]) = vadd (pathVec g [a]) (edgeVec g a t)
      rw [pathVec_single, pathVec_single, vadd_zero_right, vadd_zero_left]
    | cons b p' =>
      rw [List.getLast?_cons_cons] at h
      show vadd (edgeVec g a b) (pathVec g ((b :: p') ++ [t])) =
        vadd (pathVec g (a :: b :: p')) (edgeVec g u t)
      rw [ih u t h]
      show vadd (edgeVec g a b) (vadd (pathVec g (b :: p')) (edgeVec g u t)) =
        vadd (vadd (edgeVec g a b) (pathVec g (b :: p'))) (edgeVec g u t)
      rw [vadd_assoc]

theorem walk_reach {g : WCGraph} {s : Nat}
    (hg : (g.map (fun e => e.1)).Nodup) :
    ∀ (q : List Nat) (u : Nat) (acc : Vec) (t : Nat), Reach g s u acc →
      List.Chain (HasEdge g) u q → (u :: q).getLast? = some t →
      Reach g s t (vadd acc (pathVec g (u :: q))) := by
  intro q
  induction q with
  | nil =>
    intro u acc t hr _ hlast
    have : u = t := by simpa using hlast
    subst this
    rw [pathVec_single, vadd_zero_right]
    exact hr
  | cons b q ih =>
    intro u acc t hr hch hlast
    rcases List.chain_cons.mp hch with ⟨⟨w, hw⟩, hch'⟩
    rw [List.getLast?_cons_cons] at hlast
    have hrb : Reach g s b (vadd acc w) := Reach.step hr hw
    have := ih b (vadd acc w) t hrb hch' hlast
    show Reach g s t (vadd acc (vadd (edgeVec g u b) (pathVec g (b :: q))))
    rw [edgeVec_eq hg hw, ← vadd_assoc]
    exact this

theorem reach_iff_walk {g : WCGraph} {s : Nat}
    (hg : (g.map (fun e => e.1)).Nodup) :
    ∀ (t : Nat) (v : Vec), Reach g s t v ↔
      ∃ p, GWalk g s t p ∧ pathVec g p = v := by
  intro t v
  constructor
  · intro hr
    induction hr with
    | source =>
      exact ⟨[s], ⟨by simp, rfl, rfl, List.Chain.nil⟩, rfl⟩
    | step hru hedge ihr =>
      rename_i u t' w acc
      rcases ihr with ⟨p, ⟨hne, hhead, hlast, hch⟩, rfl⟩
      refine ⟨p ++ [t'], ⟨by simp, ?_, List.getLast?_concat p, ?_⟩, ?_⟩
      · cases p with
        | nil => exact absurd rfl hne
        | cons a p' => simpa using hhead
      · rw [List.chain'_append]
        refine ⟨hch, List.Chain.nil, ?_⟩
        intro x hx y hy
        rw [hlast] at hx
        have hx' : x = u := (Option.mem_some_iff.mp hx).symm
        have hy' : y = t' := by
          have : y ∈ some t' := hy
          exact (Option.mem_some_iff.mp this).symm
        subst hx' hy'
        exact ⟨w, hedge⟩
      · rw [pathVec_concat p u t' hlast, edgeVec_eq hg hedge]
  · rintro ⟨p, ⟨hne, hhead, hlast, hch⟩, rfl⟩
    cases p with
    | nil => exact absurd rfl hne
    | cons a q =>
      have ha : a = s := by simpa using hhead
      subst ha
      have := walk_reach hg q a (0, 0) t Reach.source hch hlast
      rwa [vadd_zero_left] at this

theorem not_nodup_decomp {β : Type} :
    ∀ {l : List β}, ¬ l.Nodup →
      ∃ xs x ys zs, l = (xs ++ (x :: ys)) ++ (x :: zs) := by
  intro l
  induction l with
  | nil =>
    intro h
    exact absurd List.nodup_nil h
  | cons a t ih =>
    intro h
    by_cases ha : a ∈ t
    · rcases List.append_of_mem ha with ⟨ys, zs, rfl⟩
      exact ⟨[], a, ys, zs, by simp⟩
    · have hnt : ¬ t.Nodup := fun hn => h (List.nodup_cons.mpr ⟨ha, hn⟩)
      rcases ih hnt with ⟨xs, x, ys, zs, rfl⟩
      exact ⟨a :: xs, x, ys, zs, by simp⟩

theorem pathVec_split {g : WCGraph} :
    ∀ (l1 : List Nat) (x : Nat) (l2 : List Nat),
      pathVec g (l1 ++ (x :: l2)) =
        vadd (pathVec g (l1 ++ [x])) (pathVec g (x :: l2)) := by
  intro l1
  induction l1 with
  | nil =>
    intro x l2
    rw [List.nil_append, List.nil_append, pathVec_single, vadd_zero_left]
  | cons a l1 ih =>
    intro x l2
    cases l1 with
    | nil =>
      show vadd (edgeVec g a x) (pathVec g (x :: l2)) =
        vadd (pathVec g [a, x]) (pathVec g (x :: l2))
      have h2 : pathVec g [a, x] = edgeVec g a x := by
        show vadd (edgeVec g a x) (pathVec g [x]) = edgeVec g a x
        rw [pathVec_single, vadd_zero_right]
      rw [h2]
    | cons b l1' =>
      show vadd (edgeVec g a b) (pathVec g ((b :: l1') ++ (x :: l2))) =
        vadd (pathVec g ((a :: b :: l1') ++ [x])) (pathVec g (x :: l2))
      rw [ih x l2]
      show vadd (edgeVec g a b)
          (vadd (pathVec g ((b :: l1') ++ [x])) (pathVec g (x :: l2))) =
        vadd (vadd (edgeVec g a b) (pathVec g ((b :: l1') ++ [x])))
          (pathVec g (x :: l2))
      rw [vadd_assoc]

theorem vecLE_vadd_mid (a b c : Vec) :
    vecLE (vadd a c) (vadd a (vadd b c)) := by
  unfold vecLE vadd
  dsimp only
  constructor
  · omega
  · omega

theorem cut_walk {g : WCGraph} :
    ∀ (n : Nat) (p : List Nat) (s t : Nat), p.length ≤ n → GWalk g s t p →
      ∃ p2, GWalk g s t p2 ∧ p2.Nodup ∧
        vecLE (pathVec g p2) (pathVec g p) := by
  intro n
  induction n with
  | zero =>
    intro p s t hlen hw
    have hp : p = [] := by
      cases p with
      | nil => rfl
      | cons a q => simp at hlen
    exact absurd hp hw.1
  | succ n ih =>
    intro p s t hlen hw
    by_cases hnd : p.Nodup
    · exact ⟨p, hw, hnd, vecLE_refl _⟩
    · rcases not_nodup_decomp hnd with ⟨xs, x, ys, zs, rfl⟩
      obtain ⟨hne, hhead, hlast, hch⟩ := hw
      have hw2 : GWalk g s t (xs ++ (x :: zs)) := by
        refine ⟨by simp, ?_, ?_, ?_⟩
        · cases xs with
          | nil => simpa using hhead
          | cons a xs' => simpa using hhead
        · rw [List.getLast?_append_cons] at hlast
          rw [List.getLast?_append_cons]
          exact hlast
        · rw [List.chain'_append] at hch
          obtain ⟨hchl, hchr, hlink⟩ := hch
          rw [List.chain'_append] at hchl
          obtain ⟨hchxs, hchxys, hlink2⟩ := hchl
          rw [List.chain'_append]
          refine ⟨hchxs, hchr, ?_⟩
          intro a ha y hy
          apply hlink2 a ha y
          simpa using hy
      have hlen2 : (xs ++ (x :: zs)).length ≤ n := by
        simp only [List.length_append, List.length_cons] at hlen ⊢
        omega
      rcases ih (xs ++ (x :: zs)) s t hlen2 hw2 with ⟨p2, hwp2, hnd2, hle2⟩
      refine ⟨p2, hwp2, hnd2, vecLE_trans hle2 ?_⟩
      have e1 : (xs ++ (x :: ys)) ++ (x :: zs) =
          xs ++ (x :: (ys ++ (x :: zs))) := by
        simp
      rw [e1, pathVec_split xs x (ys ++ (x :: zs)), pathVec_split xs x zs]
      have e2 : (x :: (ys ++ (x :: zs))) = (x :: ys) ++ (x :: zs) := by
        simp
      rw [e2, pathVec_split (x :: ys) x zs]
      exact vecLE_vadd_mid _ _ _

theorem simple_reach {g : WCGraph} {s t : Nat} {p : List Nat}
    (hg : (g.map (fun e => e.1)).Nodup) (hp : GPath g s t p) :
    Reach g s t (pathVec g p) :=
  (reach_iff_walk hg t (pathVec g p)).mpr ⟨p, hp.1, rfl⟩

theorem reach_simple_le {g : WCGraph} {s t : Nat} {v : Vec}
    (hg : (g.map (fun e => e.1)).Nodup) (hr : Reach g s t v) :
    ∃ p, GPath g s t p ∧ vecLE (pathVec g p) v := by
  rcases (reach_iff_walk hg t v).mp hr with ⟨p, hw, rfl⟩
  rcases cut_walk p.length p s t (Nat.le_refl _) hw with ⟨p2, hw2, hnd2, hle2⟩
  exact ⟨p2, ⟨hw2, hnd2⟩, hle2⟩

/-- The minimal within-budget walk-reachable vectors at a node coincide with
the minimal within-budget simple-path vectors (non-negative resources let any
cycle be cut without increasing either component). -/
theorem min_reach_iff_min_simple {g : WCGraph} {s B : Nat}
    (hg : (g.map (fun e => e.1)).Nodup) (t : Nat) (v : Vec) :
    ((Reach g s t v ∧ v.1 ≤ B) ∧
        ∀ w, Reach g s t w ∧ w.1 ≤ B → ¬ dominates w v) ↔
      (((∃ p, GPath g s t p ∧ pathVec g p = v) ∧ v.1 ≤ B) ∧
        ∀ w, (∃ p, GPath g s t p ∧ pathVec g p = w) ∧ w.1 ≤ B →
          ¬ dominates w v) := by
  constructor
  · rintro ⟨⟨hr, hB⟩, hmin⟩
    rcases reach_simple_le hg hr with ⟨p, hp, hle⟩
    have hr2 : Reach g s t (pathVec g p) := simple_reach hg hp
    have hB2 : (pathVec g p).1 ≤ B := Nat.le_trans hle.1 hB
    have hnd : ¬ dominates (pathVec g p) v := hmin _ ⟨hr2, hB2⟩
    have heq : pathVec g p = v := by
      by_contra hne
      exact hnd ⟨hle, hne⟩
    refine ⟨⟨⟨p, hp, heq⟩, hB⟩, ?_⟩
    rintro w ⟨⟨q, hq, rfl⟩, hwB⟩
    exact hmin (pathVec g q) ⟨simple_reach hg hq, hwB⟩
  · rintro ⟨⟨⟨p, hp, hpv⟩, hB⟩, hmin⟩
    refine ⟨⟨hpv ▸ simple_reach hg hp, hB⟩, ?_⟩
    rintro w ⟨hrw, hwB⟩ hdom
    rcases reach_simple_le hg hrw with ⟨q, hq, hqle⟩
    have hqv : dominates (pathVec g q) v := by
      refine ⟨vecLE_trans hqle (dominates_vecLE hdom), ?_⟩
      intro he
      apply hdom.2
      apply vecLE_antisymm (dominates_vecLE hdom)
      rw [← he]
      exact hqle
    exact hmin (pathVec g q) ⟨⟨q, hq, rfl⟩, Nat.le_trans hqle.1 hwB⟩ hqv

theorem mem_enum_iff_gpath {g : WCGraph} {s t : Nat} (p : List Nat) :
    p ∈ simplePathsFrom (succG g) t (allNodes g s).length s [s] ↔
      GPath g s t p := by
  rw [mem_simplePathsFrom]
  constructor
  · rintro ⟨q, rfl, hch, hlast, hnd, havoid, -⟩
    refine ⟨⟨by simp, rfl, hlast, ?_⟩, ?_⟩
    · show List.Chain (HasEdge g) s q
      exact List.Chain.imp (fun a b hm => mem_succG.mp hm) hch
    · refine List.nodup_cons.mpr ⟨?_, hnd⟩
      intro hsq
      exact havoid s hsq (List.mem_singleton.mpr rfl)
  · rintro ⟨⟨hne, hhead, hlast, hch⟩, hnd⟩
    cases p with
    | nil => exact absurd rfl hne
    | cons a q =>
      have ha : a = s := by simpa using hhead
      subst ha
      have hchq : List.Chain (HasEdge g) a q := hch
      refine ⟨q, rfl, List.Chain.imp (fun a b hm => mem_succG.mpr hm) hchq,
        hlast, (List.nodup_cons.mp hnd).2, ?_, ?_⟩
      · intro x hx hxs
        rw [List.mem_singleton] at hxs
        subst hxs
        exact (List.nodup_cons.mp hnd).1 hx
      · have hsub : ∀ x ∈ a :: q, x ∈ allNodes g a := by
          intro x hx
          rcases List.mem_cons.mp hx with rfl | hx
          · exact source_mem_allNodes g x
          · rcases chain_target_mem hchq x hx with ⟨y, w, hw⟩
            exact mem_allNodes.mpr
              (Or.inl (mem_nodesOfG.mpr ⟨((y, x), w), hw, Or.inr rfl⟩))
        have := nodup_length_le hnd hsub
        simpa using this

theorem getLast?_mem {β : Type} {l : List β} {t : β}
    (h : l.getLast? = some t) : t ∈ l := by
  have ht : t ∈ l.getLast? := Option.mem_def.mpr h
  rcases List.mem_getLast?_eq_getLast ht with ⟨hne, heq⟩
  rw [heq]
  exact List.getLast_mem hne

theorem gpath_target_mem {g : WCGraph} {s t : Nat} {p : List Nat}
    (hp : GPath g s t p) : t ∈ allNodes g s := by
  rcases hp with ⟨⟨hne, hhead, hlast, hch⟩, -⟩
  cases p with
  | nil => exact absurd rfl hne
  | cons a q =>
    have ha : a = s := by simpa using hhead
    subst ha
    have hchq : List.Chain (HasEdge g) a q := hch
    rcases List.mem_cons.mp (getLast?_mem hlast) with rfl | hq
    · exact source_mem_allNodes g t
    · rcases chain_target_mem hchq t hq with ⟨y, w, hw⟩
      exact mem_allNodes.mpr
        (Or.inl (mem_nodesOfG.mpr ⟨((y, t), w), hw, Or.inr rfl⟩))

theorem foldTI_anti {B : Nat} :
    ∀ (vs : List Vec) (ls : List Label), AntichainStore ls →
      AntichainStore (vs.foldl (fun ls v => (tryInsert B ls v).1) ls) := by
  intro vs
  induction vs with
  | nil => intro ls h; exact h
  | cons v vs ih =>
    intro ls h
    exact ih _ (tryInsert_antichain h)

theorem foldTI_budget {B : Nat} :
    ∀ (vs : List Vec) (ls : List Label), (∀ l ∈ ls, l.vec.1 ≤ B) →
      ∀ l ∈ vs.foldl (fun ls v => (tryInsert B ls v).1) ls, l.vec.1 ≤ B := by
  intro vs
  induction vs with
  | nil => intro ls h; exact h
  | cons v vs ih =>
    intro ls h
    exact ih _ (tryInsert_budget h)

theorem foldTI_mem {B : Nat} :
    ∀ (vs : List Vec) (ls : List Label) (l : Label),
      l ∈ vs.foldl (fun ls v => (tryInsert B ls v).1) ls →
      l ∈ ls ∨ ∃ v ∈ vs, l.vec = v := by
  intro vs
  induction vs with
  | nil =>
    intro ls l h
    exact Or.inl h
  | cons v vs ih =>
    intro ls l h
    rw [List.foldl_cons] at h
    rcases ih _ l h with h | ⟨v', hv', hl⟩
    · rcases tryInsert_mem h with h | rfl
      · exact Or.inl h
      · exact Or.inr ⟨v, List.mem_cons_self v vs, rfl⟩
    · exact Or.inr ⟨v', List.mem_cons_of_mem v hv', hl⟩

theorem foldTI_cover_mono {B : Nat} :
    ∀ (vs : List Vec) (ls : List Label) (w : Vec),
      (∃ l ∈ ls, vecLE l.vec w) →
      ∃ l ∈ vs.foldl (fun ls v => (tryInsert B ls v).1) ls, vecLE l.vec w := by
  intro vs
  induction vs with
  | nil => intro ls w h; exact h
  | cons v vs ih =>
    intro ls w h
    exact ih _ w (tryInsert_cover_mono h)

theorem foldTI_covers {B : Nat} :
    ∀ (vs : List Vec) (ls : List Label) (v : Vec), v ∈ vs → v.1 ≤ B →
      ∃ l ∈ vs.foldl (fun ls v => (tryInsert B ls v).1) ls, vecLE l.vec v := by
  intro vs
  induction vs with
  | nil =>
    intro ls v hv
    cases hv
  | cons v0 vs ih =>
    intro ls v hv hB
    rcases List.mem_cons.mp hv with rfl | hv
    · exact foldTI_cover_mono vs _ v (tryInsert_covers hB)
    · exact ih _ v hv hB

/-- The within-budget vectors of the enumerated simple paths ending at `t`. -/
def vecsAt (g : WCGraph) (s B t : Nat) : List Vec :=
  ((simplePathsFrom (succG g) t (allNodes g s).length s [s]).map
    (pathVec g)).filter (fun v => decide (v.1 ≤ B))

theorem gen_fold_aux {B : Nat} (F : Nat → List Vec) :
    ∀ (ns : List Nat), ns.Nodup → ∀ (st0 : Stores) (t : Nat),
      (ns.foldl
        (fun st u =>
          setStore st u ((F u).foldl (fun ls v => (tryInsert B ls v).1) (st u)))
        st0) t =
        if t ∈ ns then (F t).foldl (fun ls v => (tryInsert B ls v).1) (st0 t)
        else st0 t := by
  intro ns
  induction ns with
  | nil =>
    intro _ st0 t
    simp
  | cons u ns ih =>
    intro hnd st0 t
    rcases List.nodup_cons.mp hnd with ⟨hu, hnd'⟩
    rw [List.foldl_cons, ih hnd']
    by_cases ht : t ∈ u :: ns
    · rw [if_pos ht]
      rcases List.mem_cons.mp ht with rfl | htns
      · have htns : t ∉ ns := hu
        rw [if_neg htns, setStore_same]
      · have htu : t ≠ u := by
          intro h
          rw [h] at htns
          exact hu htns
        rw [if_pos htns, setStore_other _ htu]
    · have h1 : t ∉ ns := fun h => ht (List.mem_cons_of_mem u h)
      have h2 : t ≠ u := by
        intro h
        exact ht (h ▸ List.mem_cons_self u ns)
      rw [if_neg ht, if_neg h1, setStore_other _ h2]

theorem gen_all_apply (prior : Stores) (g : WCGraph) (s B t : Nat) :
    gen_all_possible_labels prior g s B t =
      if t ∈ allNodes g s then
        (vecsAt g s B t).foldl (fun ls v => (tryInsert B ls v).1) []
      else [] := by
  show ((allNodes g s).foldl
      (fun st u =>
        setStore st u
          ((vecsAt g s B u).foldl (fun ls v => (tryInsert B ls v).1) (st u)))
      (fun _ => [])) t =
    if t ∈ allNodes g s then
      (vecsAt g s B t).foldl (fun ls v => (tryInsert B ls v).1) [] else []
  rw [gen_fold_aux (fun u => vecsAt g s B u) (allNodes g s)
    (nodup_allNodes g s) (fun _ => []) t]

theorem mem_vecsAt {g : WCGraph} {s B t : Nat} {v : Vec} :
    v ∈ vecsAt g s B t ↔
      (∃ p, GPath g s t p ∧ pathVec g p = v) ∧ v.1 ≤ B := by
  unfold vecsAt
  rw [List.mem_filter]
  simp only [List.mem_map, decide_eq_true_eq]
  constructor
  · rintro ⟨⟨p, hp, rfl⟩, hB⟩
    exact ⟨⟨p, (mem_enum_iff_gpath p).mp hp, rfl⟩, hB⟩
  · rintro ⟨⟨p, hp, rfl⟩, hB⟩
    exact ⟨⟨p, (mem_enum_iff_gpath p).mpr hp, rfl⟩, hB⟩

/-- The exhaustive oracle's store at each node is exactly the Pareto frontier
of the simple-path within-budget vectors. -/
theorem v3_frontier (prior : Stores) (g : WCGraph) (s B : Nat) :
    ∀ t v, (∃ l ∈ gen_all_possible_labels prior g s B t, l.vec = v) ↔
      ((∃ p, GPath g s t p ∧ pathVec g p = v) ∧ v.1 ≤ B) ∧
        ∀ w, (∃ p, GPath g s t p ∧ pathVec g p = w) ∧ w.1 ≤ B →
          ¬ dominates w v := by
  intro t v
  rw [gen_all_apply]
  by_cases ht : t ∈ allNodes g s
  · rw [if_pos ht]
    refine frontier_eq_min
      (S := fun w => (∃ p, GPath g s t p ∧ pathVec g p = w) ∧ w.1 ≤ B)
      (foldTI_anti _ [] ?_) ?_ ?_ v
    · intro l hl
      cases hl
    · intro l hl
      rcases foldTI_mem _ [] l hl with h | ⟨v', hv', hlv⟩
      · cases h
      · rw [hlv]
        exact mem_vecsAt.mp hv'
    · intro w hw
      exact foldTI_covers _ [] w (mem_vecsAt.mpr hw) hw.2
  · rw [if_neg ht]
    constructor
    · rintro ⟨l, hl, -⟩
      cases hl
    · rintro ⟨⟨⟨p, hp, -⟩, -⟩, -⟩
      exact absurd (gpath_target_mem hp) ht

theorem v1_antichain (prior : Stores) (g : WCGraph) (s B fuel t : Nat) :
    AntichainStore (storesOf (run_algorithm_v1 prior g s B fuel) t) := by
  cases hrun : run_algorithm_v1 prior g s B fuel with
  | none =>
    intro l hl
    cases hl
  | some st =>
    exact (loopV1_some fuel _ st hrun (initStores_inv g s B)).1.2.1 t

theorem v2_antichain (prior : Stores) (g : WCGraph) (s B fuel t : Nat) :
    AntichainStore (storesOf (run_algorithm_v2 prior g s B fuel) t) := by
  cases hrun : run_algorithm_v2 prior g s B fuel with
  | none =>
    intro l hl
    cases hl
  | some st =>
    have hinit : StateInvV2 g s B (initStores s) :=
      ⟨(initStores_inv g s B).1, (initStores_inv g s B).2.1⟩
    exact (loopV2_some fuel _ st hrun hinit).1.2.1 t

theorem v3_antichain (prior : Stores) (g : WCGraph) (s B t : Nat) :
    AntichainStore (gen_all_possible_labels prior g s B t) := by
  rw [gen_all_apply]
  split
  · refine foldTI_anti _ [] ?_
    intro l hl
    cases hl
  · intro l hl
    cases hl

theorem v1_budget (prior : Stores) (g : WCGraph) (s B fuel t : Nat) :
    ∀ l ∈ storesOf (run_algorithm_v1 prior g s B fuel) t, l.vec.1 ≤ B := by
  cases hrun : run_algorithm_v1 prior g s B fuel with
  | none =>
    intro l hl
    cases hl
  | some st =>
    intro l hl
    exact ((loopV1_some fuel _ st hrun (initStores_inv g s B)).1.1 t l hl).2

theorem v2_budget (prior : Stores) (g : WCGraph) (s B fuel t : Nat) :
    ∀ l ∈ storesOf (run_algorithm_v2 prior g s B fuel) t, l.vec.1 ≤ B := by
  cases hrun : run_algorithm_v2 prior g s B fuel with
  | none =>
    intro l hl
    cases hl
  | some st =>
    intro l hl
    have hinit : StateInvV2 g s B (initStores s) :=
      ⟨(initStores_inv g s B).1, (initStores_inv g s B).2.1⟩
    exact ((loopV2_some fuel _ st hrun hinit).1.1 t l hl).2

theorem v3_budget (prior : Stores) (g : WCGraph) (s B t : Nat) :
    ∀ l ∈ gen_all_possible_labels prior g s B t, l.vec.1 ≤ B := by
  rw [gen_all_apply]
  split
  · refine foldTI_budget _ [] ?_
    intro l hl
    cases hl
  · intro l hl
    cases hl

theorem antichain_frontier {ls : List Label} (h : AntichainStore ls) :
    ∀ a ∈ get_efficient_labels ls, ∀ b ∈ get_efficient_labels ls,
      ¬ dominates a b := by
  intro a ha b hb
  rcases List.mem_map.mp ha with ⟨l1, hl1, rfl⟩
  rcases List.mem_map.mp hb with ⟨l2, hl2, rfl⟩
  exact h l1 hl1 l2 hl2

end LabelAlgorithm

end QISE

/-- C1: for any weight-cost graph (an edge dict, so no duplicate edge keys;
resources are non-negative by the ResourceVector data model), the same source
node and the same weight budget, the correcting strategy
(`run_algorithm_v1`), the setting strategy (`run_algorithm_v2`) and the
exhaustive oracle (`gen_all_possible_labels`) produce identical per-node
efficient frontiers, viewed as sets of (weight, cost) pairs, whenever the
two iterative runs complete. -/
theorem C1_strategy_equivalence (g : QISE.LabelAlgorithm.WCGraph)
    (s B f1 f2 : Nat) (prior1 prior2 prior3 : QISE.LabelAlgorithm.Stores)
    (hg : (g.map (fun e => e.1)).Nodup)
    (h1 : (QISE.LabelAlgorithm.run_algorithm_v1 prior1 g s B f1).isSome = true)
    (h2 : (QISE.LabelAlgorithm.run_algorithm_v2 prior2 g s B f2).isSome = true) :
    ∀ t v,
      ((∃ l ∈ QISE.LabelAlgorithm.storesOf
            (QISE.LabelAlgorithm.run_algorithm_v1 prior1 g s B f1) t,
          l.vec = v) ↔
        (∃ l ∈ QISE.LabelAlgorithm.storesOf
            (QISE.LabelAlgorithm.run_algorithm_v2 prior2 g s B f2) t,
          l.vec = v))
      ∧
      ((∃ l ∈ QISE.LabelAlgorithm.storesOf
            (QISE.LabelAlgorithm.run_algorithm_v2 prior2 g s B f2) t,
          l.vec = v) ↔
        (∃ l ∈ QISE.LabelAlgorithm.gen_all_possible_labels prior3 g s B t,
          l.vec = v)) := by
  rcases Option.isSome_iff_exists.mp h1 with ⟨st1, hst1⟩
  rcases Option.isSome_iff_exists.mp h2 with ⟨st2, hst2⟩
  rw [hst1, hst2]
  simp only [QISE.LabelAlgorithm.storesOf]
  intro t v
  constructor
  · exact (QISE.LabelAlgorithm.v1_frontier hst1 t v).trans
      (QISE.LabelAlgorithm.v2_frontier hst2 t v).symm
  · exact (QISE.LabelAlgorithm.v2_frontier hst2 t v).trans
      ((QISE.LabelAlgorithm.min_reach_iff_min_simple hg t v).trans
        (QISE.LabelAlgorithm.v3_frontier prior3 g s B t v).symm)

/-- C1 witness: on the one-edge graph `(0, 1)` with vector `(1, 1)`, source
`0` and budget `3`, both iterative runs complete within fuel `10` and the
equivalence applies. -/
theorem C1_strategy_equivalence_witness :
    (([(((0 : Nat), (1 : Nat)), ((1 : Nat), (1 : Nat)))] :
        QISE.LabelAlgorithm.WCGraph).map (fun e => e.1)).Nodup
      ∧ (QISE.LabelAlgorithm.run_algorithm_v1 (fun _ => [])
          [((0, 1), (1, 1))] 0 3 10).isSome = true
      ∧ (QISE.LabelAlgorithm.run_algorithm_v2 (fun _ => [])
          [((0, 1), (1, 1))] 0 3 10).isSome = true
      ∧ (∀ t v,
          ((∃ l ∈ QISE.LabelAlgorithm.storesOf
                (QISE.LabelAlgorithm.run_algorithm_v1 (fun _ => [])
                  [((0, 1), (1, 1))] 0 3 10) t, l.vec = v) ↔
            (∃ l ∈ QISE.LabelAlgorithm.storesOf
                (QISE.LabelAlgorithm.run_algorithm_v2 (fun _ => [])
                  [((0, 1), (1, 1))] 0 3 10) t, l.vec = v))
          ∧
          ((∃ l ∈ QISE.LabelAlgorithm.storesOf
                (QISE.LabelAlgorithm.run_algorithm_v2 (fun _ => [])
                  [((0, 1), (1, 1))] 0 3 10) t, l.vec = v) ↔
            (∃ l ∈ QISE.LabelAlgorithm.gen_all_possible_labels (fun _ => [])
                [((0, 1), (1, 1))] 0 3 t, l.vec = v))) :=
  ⟨by decide, by decide, by decide,
    C1_strategy_equivalence [((0, 1), (1, 1))] 0 3 10 10
      (fun _ => []) (fun _ => []) (fun _ => [])
      (by decide) (by decide) (by decide)⟩

/-- C2: after any run of any of the three strategies, no two labels in any
node's returned efficient frontier dominate each other. -/
theorem C2_frontier_antichain (g : QISE.LabelAlgorithm.WCGraph)
    (s B fuel : Nat) (prior : QISE.LabelAlgorithm.Stores) (t : Nat) :
    (∀ a ∈ QISE.LabelAlgorithm.get_efficient_labels
        (QISE.LabelAlgorithm.storesOf
          (QISE.LabelAlgorithm.run_algorithm_v1 prior g s B fuel) t),
      ∀ b ∈ QISE.LabelAlgorithm.get_efficient_labels
        (QISE.LabelAlgorithm.storesOf
          (QISE.LabelAlgorithm.run_algorithm_v1 prior g s B fuel) t),
        ¬ QISE.LabelAlgorithm.dominates a b)
    ∧ (∀ a ∈ QISE.LabelAlgorithm.get_efficient_labels
        (QISE.LabelAlgorithm.storesOf
          (QISE.LabelAlgorithm.run_algorithm_v2 prior g s B fuel) t),
      ∀ b ∈ QISE.LabelAlgorithm.get_efficient_labels
        (QISE.LabelAlgorithm.storesOf
          (QISE.LabelAlgorithm.run_algorithm_v2 prior g s B fuel) t),
        ¬ QISE.LabelAlgorithm.dominates a b)
    ∧ (∀ a ∈ QISE.LabelAlgorithm.get_efficient_labels
        (QISE.LabelAlgorithm.gen_all_possible_labels prior g s B t),
      ∀ b ∈ QISE.LabelAlgorithm.get_efficient_labels
        (QISE.LabelAlgorithm.gen_all_possible_labels prior g s B t),
        ¬ QISE.LabelAlgorithm.dominates a b) :=
  ⟨QISE.LabelAlgorithm.antichain_frontier
      (QISE.LabelAlgorithm.v1_antichain prior g s B fuel t),
    QISE.LabelAlgorithm.antichain_frontier
      (QISE.LabelAlgorithm.v2_antichain prior g s B fuel t),
    QISE.LabelAlgorithm.antichain_frontier
      (QISE.LabelAlgorithm.v3_antichain prior g s B t)⟩

/-- C2 witness: on the one-edge graph, `(1, 1)` lies in node `1`'s frontier
for each strategy and does not dominate itself. -/
theorem C2_frontier_antichain_witness :
    ((1, 1) ∈ QISE.LabelAlgorithm.get_efficient_labels
        (QISE.LabelAlgorithm.storesOf
          (QISE.LabelAlgorithm.run_algorithm_v1 (fun _ => [])
            [((0, 1), (1, 1))] 0 3 10) 1)
      ∧ ¬ QISE.LabelAlgorithm.dominates (1, 1) (1, 1))
    ∧ ((1, 1) ∈ QISE.LabelAlgorithm.get_efficient_labels
        (QISE.LabelAlgorithm.storesOf
          (QISE.LabelAlgorithm.run_algorithm_v2 (fun _ => [])
            [((0, 1), (1, 1))] 0 3 10) 1)
      ∧ ¬ QISE.LabelAlgorithm.dominates (1, 1) (1, 1))
    ∧ ((1, 1) ∈ QISE.LabelAlgorithm.get_efficient_labels
        (QISE.LabelAlgorithm.gen_all_possible_labels (fun _ => [])
          [((0, 1), (1, 1))] 0 3 1)
      ∧ ¬ QISE.LabelAlgorithm.dominates (1, 1) (1, 1)) :=
  ⟨⟨by decide,
      (C2_frontier_antichain [((0, 1), (1, 1))] 0 3 10 (fun _ => []) 1).1
        (1, 1) (by decide) (1, 1) (by decide)⟩,
    ⟨by decide,
      (C2_frontier_antichain [((0, 1), (1, 1))] 0 3 10 (fun _ => []) 1).2.1
        (1, 1) (by decide) (1, 1) (by decide)⟩,
    ⟨by decide,
      (C2_frontier_antichain [((0, 1), (1, 1))] 0 3 10 (fun _ => []) 1).2.2
        (1, 1) (by decide) (1, 1) (by decide)⟩⟩

/-- C3: every label retained by any run of any strategy has weight within the
budget, and `tryInsert` rejects an over-budget candidate unconditionally,
leaving the store unchanged, before any dominance comparison. -/
theorem C3_budget_respected (g : QISE.LabelAlgorithm.WCGraph)
    (s B fuel : Nat) (prior : QISE.LabelAlgorithm.Stores) :
    (∀ t, ∀ l ∈ QISE.LabelAlgorithm.storesOf
        (QISE.LabelAlgorithm.run_algorithm_v1 prior g s B fuel) t,
      l.vec.1 ≤ B)
    ∧ (∀ t, ∀ l ∈ QISE.LabelAlgorithm.storesOf
        (QISE.LabelAlgorithm.run_algorithm_v2 prior g s B fuel) t,
      l.vec.1 ≤ B)
    ∧ (∀ t, ∀ l ∈ QISE.LabelAlgorithm.gen_all_possible_labels prior g s B t,
      l.vec.1 ≤ B)
    ∧ (∀ (ls : List QISE.LabelAlgorithm.Label)
        (v : QISE.LabelAlgorithm.Vec), B < v.1 →
      QISE.LabelAlgorithm.tryInsert B ls v = (ls, false)) :=
  ⟨fun t => QISE.LabelAlgorithm.v1_budget prior g s B fuel t,
    fun t => QISE.LabelAlgorithm.v2_budget prior g s B fuel t,
    fun t => QISE.LabelAlgorithm.v3_budget prior g s B t,
    fun _ _ h => QISE.LabelAlgorithm.tryInsert_over_budget h⟩

/-- C3 witness: on the one-edge graph with budget `3`, the retained label
`(1, 1)` at node `1` respects the budget, and inserting the over-budget
vector `(4, 0)` into any store is rejected unchanged. -/
theorem C3_budget_respected_witness :
    ((⟨(1, 1), true⟩ : QISE.LabelAlgorithm.Label) ∈
        QISE.LabelAlgorithm.storesOf
          (QISE.LabelAlgorithm.run_algorithm_v1 (fun _ => [])
            [((0, 1), (1, 1))] 0 3 10) 1
      ∧ ((⟨(1, 1), true⟩ : QISE.LabelAlgorithm.Label)).vec.1 ≤ 3)
    ∧ ((3 : Nat) < (4, 0).1
      ∧ QISE.LabelAlgorithm.tryInsert 3 [] (4, 0) = ([], false)) :=
  ⟨⟨by decide,
      (C3_budget_respected [((0, 1), (1, 1))] 0 3 10 (fun _ => [])).1 1
        ⟨(1, 1), true⟩ (by decide)⟩,
    ⟨by decide,
      (C3_budget_respected [((0, 1), (1, 1))] 0 3 10 (fun _ => [])).2.2.2 []
        (4, 0) (by decide)⟩⟩

/-- C4: the engine is a deterministic function of (graph, source, budget,
strategy): each strategy reinitializes its per-node stores at entry, so two
runs with identical inputs produce identical results whatever the engine
object's prior `node_labels` state was. -/
theorem C4_deterministic (g : QISE.LabelAlgorithm.WCGraph) (s B fuel : Nat)
    (prior1 prior2 : QISE.LabelAlgorithm.Stores) :
    QISE.LabelAlgorithm.run_algorithm_v1 prior1 g s B fuel =
        QISE.LabelAlgorithm.run_algorithm_v1 prior2 g s B fuel
      ∧ QISE.LabelAlgorithm.run_algorithm_v2 prior1 g s B fuel =
        QISE.LabelAlgorithm.run_algorithm_v2 prior2 g s B fuel
      ∧ QISE.LabelAlgorithm.gen_all_possible_labels prior1 g s B =
        QISE.LabelAlgorithm.gen_all_possible_labels prior2 g s B :=
  ⟨rfl, rfl, rfl⟩

/-- C6: every path returned by `Graph.get_simple_paths` is a node sequence
starting at the source, ending at the (effective) destination, repeating no
node, with every consecutive pair an edge of the graph; and every such simple
path of the graph is among those returned. -/
theorem C6_get_simple_paths_enumeration (edges : List (Int × Int)) (s : Int)
    (dopt : Option Int) (ps : List (List Int))
    (h : QISE.Graph.get_simple_paths edges s dopt = Except.ok ps) :
    ∀ p, p ∈ ps ↔
      QISE.Graph.IsSimplePathTo edges s (QISE.Graph.effDest edges dopt) p := by
  intro p
  unfold QISE.Graph.get_simple_paths at h
  by_cases hemp : (QISE.Graph.get_nodes edges).isEmpty
  · rw [if_pos hemp] at h
    have hps : ps = [] := (Except.ok.inj h).symm
    subst hps
    simp only [List.not_mem_nil, false_iff]
    rintro ⟨q, rfl, _, _, _, hall⟩
    have hsn := hall s (List.mem_cons_self s q)
    rw [List.isEmpty_iff.mp hemp] at hsn
    cases hsn
  · rw [if_neg hemp] at h
    unfold QISE.Graph.all_simple_paths at h
    by_cases hs : s ∈ QISE.Graph.get_nodes edges
    · rw [if_neg (by simpa using hs)] at h
      by_cases ht : QISE.Graph.effDest edges dopt ∈ QISE.Graph.get_nodes edges
      · rw [if_neg (by simpa using ht)] at h
        have hps := (Except.ok.inj h).symm
        subst hps
        exact QISE.Graph.mem_dfs_iff_isSimplePath hs p
      · rw [if_pos (by simpa using ht)] at h
        cases h
    · rw [if_pos (by simpa using hs)] at h
      cases h

/-- C7 counterexample: on the empty edge list the source `0` is outside the
node universe, yet `Graph.get_simple_paths` returns the empty path list
instead of failing: the `if self.networkx_graph:` guard is falsy for a graph
with no nodes, so the initial `paths = []` is returned. -/
theorem C7_counterexample_empty_graph :
    (0 : Int) ∉ QISE.Graph.get_nodes ([] : List (Int × Int)) ∧
      QISE.Graph.get_simple_paths ([] : List (Int × Int)) 0 none =
        Except.ok [] := by
  constructor
  · decide
  · rfl

/-- C7 amended: provided the graph has at least one node, a source node (or
effective queried destination) outside the node universe makes
`Graph.get_simple_paths` fail at the call with a typed `NodeNotFound` error
rather than yield an empty or partial result; on a graph with no nodes the
call instead returns the initial empty path list. -/
theorem C7_unknown_node_rejected (edges : List (Int × Int)) (s : Int)
    (dopt : Option Int) (hne : QISE.Graph.get_nodes edges ≠ [])
    (hout : s ∉ QISE.Graph.get_nodes edges ∨
      QISE.Graph.effDest edges dopt ∉ QISE.Graph.get_nodes edges) :
    QISE.Graph.get_simple_paths edges s dopt =
      Except.error QISE.Graph.GraphErr.nodeNotFound := by
  unfold QISE.Graph.get_simple_paths
  rw [if_neg (by simpa [List.isEmpty_iff] using hne)]
  unfold QISE.Graph.all_simple_paths
  by_cases hs : s ∈ QISE.Graph.get_nodes edges
  · rcases hout with hout | hout
    · exact absurd hs hout
    · rw [if_neg (by simpa using hs), if_pos (by simpa using hout)]
  · rw [if_pos (by simpa using hs)]

/-- C7 amended, witness: on the one-edge graph `(1, 2)` the source `0` is
outside the node universe and the call fails with `NodeNotFound`. -/
theorem C7_unknown_node_rejected_witness :
    QISE.Graph.get_nodes [((1 : Int), (2 : Int))] ≠ [] ∧
      ((0 : Int) ∉ QISE.Graph.get_nodes [((1 : Int), (2 : Int))] ∨
        QISE.Graph.effDest [((1 : Int), (2 : Int))] none ∉
          QISE.Graph.get_nodes [((1 : Int), (2 : Int))]) ∧
      QISE.Graph.get_simple_paths [((1 : Int), (2 : Int))] 0 none =
        Except.error QISE.Graph.GraphErr.nodeNotFound := by
  refine ⟨by decide, Or.inl (by decide), ?_⟩
  exact C7_unknown_node_rejected _ _ _ (by decide) (Or.inl (by decide))

/-- C8: a destination argument of `0` is falsy in Python, so
`Graph.get_simple_paths` silently replaces it — exactly as it replaces `None` —
by `len(Graph.get_nodes(edges)) - 1`, the highest index; only a non-zero,
non-`None` destination is used as given. -/
theorem C8_falsy_zero_destination (edges : List (Int × Int)) (s : Int) :
    QISE.Graph.get_simple_paths edges s (some 0) =
        QISE.Graph.get_simple_paths edges s none ∧
      QISE.Graph.effDest edges (some 0) =
        ((QISE.Graph.get_nodes edges).length : Int) - 1 ∧
      ∀ d : Int, d ≠ 0 → QISE.Graph.effDest edges (some d) = d := by
  refine ⟨rfl, rfl, ?_⟩
  intro d hd
  simp only [QISE.Graph.effDest, if_neg hd]

/-- C8 witness: a non-zero destination `5` is used as given. -/
theorem C8_falsy_zero_destination_witness :
    (5 : Int) ≠ 0 ∧
      QISE.Graph.effDest [((0 : Int), (1 : Int))] (some 5) = 5 :=
  ⟨by decide, (C8_falsy_zero_destination [((0 : Int), (1 : Int))] 0).2.2 5 (by decide)⟩

/-- C5: `Graph.get_nodes(edges)` returns exactly the distinct node identifiers
occurring as an endpoint (from or to) of some edge in the list, each appearing
exactly once. -/
theorem C5_get_nodes_distinct_endpoints (edges : List (Int × Int)) :
    (∀ x : Int, x ∈ QISE.Graph.get_nodes edges ↔ ∃ e ∈ edges, x = e.1 ∨ x = e.2)
      ∧ (QISE.Graph.get_nodes edges).Nodup :=
  ⟨fun _ => QISE.Graph.mem_get_nodes, QISE.Graph.nodup_get_nodes edges⟩

namespace QISE

/-- The edge list of `test_1` in
`src/LabelSetting/tests/LabelAlgorithmTest.py` (node pairs only). -/
def t1_edges : List (Int × Int) :=
  [(0, 1), (1, 2), (0, 3), (1, 3), (1, 4), (2, 4), (3, 4), (0, 2), (2, 3),
    (3, 5), (5, 6)]

end QISE

/-- C9: for every edge `(a, b)` the initializer writes `1` at matrix position
`[a-1][b-1]`; under numpy indexing a node identifier `0` gives index `-1`,
which does not fail but wraps to the last row (resp. column), so in a graph
with 0-based identifiers the edges incident to node `0` land in the cells of
the highest-numbered row/column. The hypothesis restricts to graphs whose
identifiers are 0-based indices, where every such access is in bounds. -/
theorem C9_connection_matrix_wraparound (edges : List (Int × Int))
    (h0 : ∀ x ∈ QISE.Graph.get_nodes edges,
      0 ≤ x ∧ x < ((QISE.Graph.get_nodes edges).length : Int))
    (a b : Int) (hmem : (a, b) ∈ edges) :
    QISE.Graph.connection_matrix edges
        (QISE.Graph.pyIdx (QISE.Graph.get_nodes edges).length (a - 1))
        (QISE.Graph.pyIdx (QISE.Graph.get_nodes edges).length (b - 1)) = 1
      ∧ (a = 0 →
          QISE.Graph.pyIdx (QISE.Graph.get_nodes edges).length (a - 1) =
            ((QISE.Graph.get_nodes edges).length : Int) - 1) := by
  refine ⟨QISE.Graph.connection_matrix_set edges hmem, ?_⟩
  rintro rfl
  unfold QISE.Graph.pyIdx
  rw [if_pos (by norm_num)]
  ring

/-- C9 witness: in the `test_1` graph (nodes `0..6`), the edge `(0, 1)` is
recorded at wrapped row index `7 - 1 = 6`. -/
theorem C9_connection_matrix_wraparound_witness :
    (∀ x ∈ QISE.Graph.get_nodes QISE.t1_edges,
        0 ≤ x ∧ x < ((QISE.Graph.get_nodes QISE.t1_edges).length : Int))
      ∧ ((0 : Int), (1 : Int)) ∈ QISE.t1_edges
      ∧ (QISE.Graph.connection_matrix QISE.t1_edges
            (QISE.Graph.pyIdx (QISE.Graph.get_nodes QISE.t1_edges).length
              ((0 : Int) - 1))
            (QISE.Graph.pyIdx (QISE.Graph.get_nodes QISE.t1_edges).length
              ((1 : Int) - 1)) = 1
          ∧ ((0 : Int) = 0 →
              QISE.Graph.pyIdx (QISE.Graph.get_nodes QISE.t1_edges).length
                  ((0 : Int) - 1) =
                ((QISE.Graph.get_nodes QISE.t1_edges).length : Int) - 1)) :=
  ⟨by decide, by decide,
    C9_connection_matrix_wraparound QISE.t1_edges (by decide) 0 1 (by decide)⟩

/-- C10: whatever the outcome of the random draws, every edge `(i, j)` built
by `Graph.get_arbitrary_graph n` (for `n ≥ 2`) satisfies `i < j` — so the
generated graph is acyclic — and carries the resource vector `(0, 0)`.
The oracle hypotheses say only that `randint lo hi` draws from `[lo, hi)` and
that `choice l k` draws members of `l`. -/
theorem C10_arbitrary_graph_forward_edges (randint : Nat → Nat → Nat)
    (choice : List Nat → Nat → List Nat) (n : Nat)
    (hri : ∀ lo hi, lo < hi → lo ≤ randint lo hi ∧ randint lo hi < hi)
    (hch : ∀ l k, ∀ x ∈ choice l k, x ∈ l) (hn : 2 ≤ n) :
    ∀ e ∈ QISE.Graph.get_arbitrary_graph randint choice n,
      e.1.1 < e.1.2 ∧ e.2 = (0, 0) := by
  unfold QISE.Graph.get_arbitrary_graph
  have main :
      ∀ (l : List Nat), (∀ i ∈ l, i < n - 1) →
        ∀ (d : List ((Nat × Nat) × (Nat × Nat))),
          (∀ e ∈ d, e.1.1 < e.1.2 ∧ e.2 = (0, 0)) →
          ∀ e ∈ l.foldl
            (fun graphDict i =>
              let N_oe := if n - i > 1 then randint 1 (n - i) else 1
              let delta_o :=
                if i ≠ n - 1 then
                  choice (List.range' (i + 1) (n - (i + 1))) N_oe
                else [n]
              let d1 := delta_o.foldl
                (fun d j => QISE.dictInsert d (i, j) (0, 0)) graphDict
              let oneInNode :=
                (List.range i).any (fun k => QISE.dictHasKey d1 (k, i))
              if oneInNode = false ∧ i ≠ 0 then
                let n_in := if i > 1 then randint 0 (i - 1) else 0
                QISE.dictInsert d1 (n_in, i) (0, 0)
              else d1)
            d, e.1.1 < e.1.2 ∧ e.2 = (0, 0) := by
    intro l
    induction l with
    | nil =>
      intro _ d hd
      exact hd
    | cons i l ih =>
      intro hl d hd
      rw [List.foldl_cons]
      refine ih (fun i' hi' => hl i' (List.mem_cons_of_mem _ hi')) _ ?_
      have hi : i < n - 1 := hl i (List.mem_cons_self i l)
      have hine : i ≠ n - 1 := Nat.ne_of_lt hi
      dsimp only
      rw [if_pos hine]
      generalize (if n - i > 1 then randint 1 (n - i) else 1) = noe
      generalize hD : (choice (List.range' (i + 1) (n - (i + 1))) noe).foldl
        (fun d j => QISE.dictInsert d (i, j) (0, 0)) d = D
      have hd1 : ∀ e ∈ D, e.1.1 < e.1.2 ∧ e.2 = (0, 0) := by
        rw [← hD]
        refine QISE.Graph.foldl_dictInsert_pred _ ?_ d hd ?_
        · intro j hj
          have := hch _ _ j hj
          have hj' := List.mem_range'.mp this
          omega
        · intro j hj
          exact ⟨hj, rfl⟩
      by_cases hcond :
          ((List.range i).any fun k => QISE.dictHasKey D (k, i)) = false ∧ i ≠ 0
      · rw [if_pos hcond]
        refine QISE.Graph.dictInsert_pred hd1 ?_
        refine ⟨?_, rfl⟩
        dsimp only
        by_cases h1 : i > 1
        · rw [if_pos h1]
          have := (hri 0 (i - 1) (by omega)).2
          omega
        · rw [if_neg h1]
          have : i ≠ 0 := hcond.2
          omega
      · rw [if_neg hcond]
        exact hd1
  intro e he
  refine main _ ?_ [] ?_ e he
  · intro i hi
    exact List.mem_range.mp hi
  · intro e he
    cases he

/-- C10 witness: with the least-value `randint` oracle and the take-first
`choice` oracle, the graph generated for `n = 3` has only forward `(0, 0)`
edges. -/
theorem C10_arbitrary_graph_forward_edges_witness :
    (∀ lo hi : Nat, lo < hi → lo ≤ lo ∧ lo < hi)
      ∧ (∀ (l : List Nat) (k : Nat), ∀ x ∈ l.take k, x ∈ l)
      ∧ 2 ≤ 3
      ∧ (∀ e ∈ QISE.Graph.get_arbitrary_graph (fun lo _ => lo)
            (fun l k => l.take k) 3,
          e.1.1 < e.1.2 ∧ e.2 = (0, 0)) :=
  ⟨fun lo _ h => ⟨Nat.le_refl lo, h⟩,
    fun l k _ hx => List.take_subset k l hx,
    by decide,
    C10_arbitrary_graph_forward_edges (fun lo _ => lo) (fun l k => l.take k) 3
      (fun lo _ h => ⟨Nat.le_refl lo, h⟩)
      (fun l k _ hx => List.take_subset k l hx) (by decide)⟩

/-- C6 witness: on the one-edge graph `(0, 1)` with destination `1`, the call
returns exactly the path `[0, 1]`, and the characterization applies. -/
theorem C6_get_simple_paths_enumeration_witness :
    QISE.Graph.get_simple_paths [((0 : Int), (1 : Int))] 0 (some 1) =
        Except.ok [[0, 1]] ∧
      (∀ p, p ∈ [[(0 : Int), 1]] ↔
        QISE.Graph.IsSimplePathTo [((0 : Int), (1 : Int))] 0
          (QISE.Graph.effDest [((0 : Int), (1 : Int))] (some 1)) p) :=
  ⟨rfl, C6_get_simple_paths_enumeration [((0 : Int), (1 : Int))] 0 (some 1)
    [[0, 1]] rfl⟩
